import Mathlib

set_option maxRecDepth 4000

/-!
Verification development for the mermaid-agent-documenter repository.

The definitions below are a shallow embedding of the Go sources:
string helpers model the `strings` package functions used by the code,
`Json`/`jsonParse`/`unmarshalOutput` model `encoding/json` as used by
`internal/agent/agent.go`, the path helpers model `path/filepath` on Unix,
and the agent / tool functions are translated from
`internal/agent/agent.go` and `internal/tools/*.go`.
-/

namespace MermaidAgent

/-- Left and right curly brace characters (written via code points). -/
def lbrace : Char := Char.ofNat 123

def rbrace : Char := Char.ofNat 125

def lbraceStr : String := String.mk [lbrace]

def rbraceStr : String := String.mk [rbrace]

/-- The separator the decoder splits concatenated objects on. -/
def sepBracesStr : String := String.mk [rbrace, lbrace]

/-- ASCII lowering of one character; models `strings.ToLower` on the
ASCII strings the agent compares (the error fingerprints are ASCII). -/
def lowerChar (c : Char) : Char :=
  if 'A' ≤ c && c ≤ 'Z' then Char.ofNat (c.toNat + 32) else c

def lowerStr (s : String) : String := String.mk (s.data.map lowerChar)

/-- Whitespace predicate of `strings.TrimSpace` restricted to ASCII. -/
def isGoSpace (c : Char) : Bool :=
  c = ' ' || c = '\t' || c = '\n' || c = '\r' || c = Char.ofNat 11 || c = Char.ofNat 12

/-- Models `strings.TrimSpace`. -/
def trimSpace (s : String) : String :=
  String.mk (((s.data.dropWhile isGoSpace).reverse.dropWhile isGoSpace).reverse)

/-- Whether the character list `s` starts with the pattern `pat`. -/
def listStarts : List Char → List Char → Bool
  | _, [] => true
  | [], _ :: _ => false
  | c :: cs, p :: ps => c = p && listStarts cs ps

/-- Models `strings.HasPrefix`. -/
def startsWithStr (s pat : String) : Bool := listStarts s.data pat.data

/-- Models `strings.HasSuffix`. -/
def endsWithStr (s pat : String) : Bool := listStarts s.data.reverse pat.data.reverse

/-- Models `strings.TrimPrefix` (drop `pat` from the front when present). -/
def dropLead (s pat : String) : String :=
  if startsWithStr s pat then String.mk (s.data.drop pat.data.length) else s

/-- Models `strings.TrimSuffix` (drop `pat` from the end when present). -/
def dropTail (s pat : String) : String :=
  if endsWithStr s pat then String.mk (s.data.take (s.data.length - pat.data.length)) else s

def containsSubCs (pat : List Char) : List Char → Bool
  | [] => listStarts [] pat
  | c :: cs => listStarts (c :: cs) pat || containsSubCs pat cs

/-- Models `strings.Contains`. -/
def containsSub (s sub : String) : Bool := containsSubCs sub.data s.data

/-- Split on the first-to-last non-overlapping occurrences of `pat`;
fuel-indexed so the definition is total (fuel `length + 1` always suffices
because each step consumes at least one character). -/
def splitSubAux (pat : List Char) : Nat → List Char → List Char → List (List Char)
  | 0, s, cur => [cur.reverse ++ s]
  | _ + 1, [], cur => [cur.reverse]
  | f + 1, c :: cs, cur =>
    if listStarts (c :: cs) pat then
      cur.reverse :: splitSubAux pat f (List.drop pat.length (c :: cs)) []
    else
      splitSubAux pat f cs (c :: cur)

/-- Models `strings.Split` (for a non-empty separator). -/
def splitSubStr (s pat : String) : List String :=
  (splitSubAux pat.data (s.data.length + 1) s.data []).map String.mk

/-- Join a list of strings with a separator (plain recursion, used both
for `strings.Join`-style rendering and for `strings.ReplaceAll`). -/
def joinWith (sep : String) : List String → String
  | [] => ""
  | [x] => x
  | x :: y :: xs => x ++ sep ++ joinWith sep (y :: xs)

/-- Models `strings.ReplaceAll` (for a non-empty pattern): replace every
non-overlapping left-to-right occurrence. -/
def replaceAll (s old new : String) : String :=
  joinWith new (splitSubStr s old)

/-- Exact decimal number `m * 10 ^ e`: the value of a JSON number
literal, modelled exactly (the agent only ever compares confidences
such as 0.95 against thresholds such as 0.9, where the float64
comparison agrees with the exact one). -/
structure Dec where
  m : Int
  e : Int
deriving DecidableEq

/-- Numeric strictly-less test on exact decimals (the `<` of `Run`). -/
def Dec.blt (a b : Dec) : Bool :=
  if b.e ≤ a.e then a.m * 10 ^ (a.e - b.e).toNat < b.m
  else a.m < b.m * 10 ^ (b.e - a.e).toNat

/-- Numeric less-or-equal test on exact decimals (the `>=` of `Run`,
arguments flipped). -/
def Dec.ble (a b : Dec) : Bool := !(Dec.blt b a)

/-- JSON values as produced by `encoding/json` unmarshalling; numbers are
modelled as exact decimals. -/
inductive Json where
  | null : Json
  | bool : Bool → Json
  | num : Dec → Json
  | str : String → Json
  | arr : List Json → Json
  | obj : List (String × Json) → Json

/-- Lookup of a key in an unmarshalled JSON object (Go map semantics:
the last duplicate wins, so we scan from the right). -/
def objGet (fields : List (String × Json)) (k : String) : Option Json :=
  (fields.reverse.find? (fun p => p.1 = k)).map Prod.snd

def objHasKey (fields : List (String × Json)) (k : String) : Bool :=
  fields.any (fun p => p.1 = k)

/-- JSON whitespace (RFC 8259, as accepted by `encoding/json`). -/
def isJsonWs (c : Char) : Bool :=
  c = ' ' || c = '\t' || c = '\n' || c = '\r'

def skipWs (cs : List Char) : List Char := cs.dropWhile isJsonWs

def hexVal (c : Char) : Option Nat :=
  let n := c.toNat
  if 48 ≤ n ∧ n ≤ 57 then some (n - 48)
  else if 97 ≤ n ∧ n ≤ 102 then some (n - 87)
  else if 65 ≤ n ∧ n ≤ 70 then some (n - 55)
  else none

/-- Body of a JSON string literal (after the opening quote), handling the
escape sequences `encoding/json` accepts; rejects raw control characters. -/
def parseStrAux : Nat → List Char → List Char → Option (List Char × List Char)
  | 0, _, _ => none
  | f + 1, acc, cs =>
    match cs with
    | [] => none
    | c :: rest =>
      if c = '"' then some (acc.reverse, rest)
      else if c = '\\' then
        match rest with
        | [] => none
        | e :: rest2 =>
          if e = '"' then parseStrAux f ('"' :: acc) rest2
          else if e = '\\' then parseStrAux f ('\\' :: acc) rest2
          else if e = '/' then parseStrAux f ('/' :: acc) rest2
          else if e = 'b' then parseStrAux f (Char.ofNat 8 :: acc) rest2
          else if e = 'f' then parseStrAux f (Char.ofNat 12 :: acc) rest2
          else if e = 'n' then parseStrAux f ('\n' :: acc) rest2
          else if e = 'r' then parseStrAux f ('\r' :: acc) rest2
          else if e = 't' then parseStrAux f ('\t' :: acc) rest2
          else if e = 'u' then
            match rest2 with
            | a :: b :: c2 :: d :: rest3 =>
              match hexVal a, hexVal b, hexVal c2, hexVal d with
              | some x, some y, some z, some w =>
                parseStrAux f (Char.ofNat (((x * 16 + y) * 16 + z) * 16 + w) :: acc) rest3
              | _, _, _, _ => none
            | _ => none
          else none
      else if c.toNat < 32 then none
      else parseStrAux f (c :: acc) rest

def digitsToNat (ds : List Char) : Nat :=
  ds.foldl (fun n c => n * 10 + (c.toNat - '0'.toNat)) 0

/-- Exact decimal value of a JSON number with sign, mantissa digits,
`fd` fractional digits and decimal exponent `ex`. -/
def mkNumDec (neg : Bool) (mant fd : Nat) (ex : Int) : Dec :=
  ⟨if neg then -(mant : Int) else (mant : Int), ex - (fd : Int)⟩

/-- JSON number literal per RFC 8259 (the grammar `encoding/json` checks). -/
def parseNum (cs : List Char) : Option (Dec × List Char) :=
  let (neg, cs1) :=
    match cs with
    | '-' :: rest => (true, rest)
    | _ => (false, cs)
  match cs1 with
  | [] => none
  | c :: rest =>
    if ¬ c.isDigit then none
    else
      let (intDigits, cs2) :=
        if c = '0' then ([c], rest)
        else (c :: rest.takeWhile Char.isDigit, rest.dropWhile Char.isDigit)
      let (fracDigits, cs3) :=
        match cs2 with
        | '.' :: r =>
          let ds := r.takeWhile Char.isDigit
          (ds, r.dropWhile Char.isDigit)
        | _ => ([], cs2)
      let fracOk : Bool :=
        match cs2 with
        | '.' :: _ => !fracDigits.isEmpty
        | _ => true
      let expPart :=
        match cs3 with
        | 'e' :: r => some r
        | 'E' :: r => some r
        | _ => none
      match expPart with
      | none =>
        if fracOk then
          some (mkNumDec neg (digitsToNat (intDigits ++ fracDigits)) fracDigits.length 0, cs3)
        else none
      | some r =>
        let (esign, r1) :=
          match r with
          | '+' :: t => ((1 : Int), t)
          | '-' :: t => ((-1 : Int), t)
          | _ => ((1 : Int), r)
        let eds := r1.takeWhile Char.isDigit
        let r2 := r1.dropWhile Char.isDigit
        if fracOk && !eds.isEmpty then
          some (mkNumDec neg (digitsToNat (intDigits ++ fracDigits)) fracDigits.length
            (esign * (digitsToNat eds : Int)), r2)
        else none

mutual

/-- One JSON value; fuel-indexed (the input length plus one is enough fuel
since every recursion step consumes at least one character). -/
def parseVal : Nat → List Char → Option (Json × List Char)
  | 0, _ => none
  | f + 1, cs =>
    let cs := skipWs cs
    match cs with
    | [] => none
    | c :: rest =>
      if c = '"' then
        match parseStrAux (rest.length + 1) [] rest with
        | some (s, r) => some (Json.str (String.mk s), r)
        | none => none
      else if c = lbrace then parseObjItems f rest []
      else if c = '[' then parseArrItems f rest []
      else if listStarts cs ['t', 'r', 'u', 'e'] then some (Json.bool true, cs.drop 4)
      else if listStarts cs ['f', 'a', 'l', 's', 'e'] then some (Json.bool false, cs.drop 5)
      else if listStarts cs ['n', 'u', 'l', 'l'] then some (Json.null, cs.drop 4)
      else
        match parseNum cs with
        | some (q, r) => some (Json.num q, r)
        | none => none

/-- Items of a JSON array, after the opening bracket or a comma. -/
def parseArrItems : Nat → List Char → List Json → Option (Json × List Char)
  | 0, _, _ => none
  | f + 1, cs, acc =>
    let cs1 := skipWs cs
    match cs1 with
    | ']' :: rest => if acc.isEmpty then some (Json.arr [], rest) else none
    | _ =>
      match parseVal f cs1 with
      | none => none
      | some (v, r) =>
        let r1 := skipWs r
        match r1 with
        | ',' :: r2 => parseArrItemsLoop f r2 (v :: acc)
        | ']' :: r2 => some (Json.arr (v :: acc).reverse, r2)
        | _ => none

/-- Continuation of array parsing after a comma (no closing bracket may
follow a comma). -/
def parseArrItemsLoop : Nat → List Char → List Json → Option (Json × List Char)
  | 0, _, _ => none
  | f + 1, cs, acc =>
    match parseVal f (skipWs cs) with
    | none => none
    | some (v, r) =>
      let r1 := skipWs r
      match r1 with
      | ',' :: r2 => parseArrItemsLoop f r2 (v :: acc)
      | ']' :: r2 => some (Json.arr (v :: acc).reverse, r2)
      | _ => none

/-- Members of a JSON object, after the opening brace. -/
def parseObjItems : Nat → List Char → List (String × Json) → Option (Json × List Char)
  | 0, _, _ => none
  | f + 1, cs, acc =>
    let cs1 := skipWs cs
    match cs1 with
    | c :: rest =>
      if c = rbrace then
        if acc.isEmpty then some (Json.obj [], rest) else none
      else if c = '"' then
        match parseStrAux (rest.length + 1) [] rest with
        | none => none
        | some (k, r) =>
          match skipWs r with
          | ':' :: r2 =>
            match parseVal f r2 with
            | none => none
            | some (v, r3) =>
              let r4 := skipWs r3
              match r4 with
              | ',' :: r5 => parseObjItemsLoop f r5 ((String.mk k, v) :: acc)
              | c2 :: r5 =>
                if c2 = rbrace then some (Json.obj ((String.mk k, v) :: acc).reverse, r5)
                else none
              | [] => none
          | _ => none
      else none
    | [] => none

/-- Continuation of object parsing after a comma (a member must follow). -/
def parseObjItemsLoop : Nat → List Char → List (String × Json) → Option (Json × List Char)
  | 0, _, _ => none
  | f + 1, cs, acc =>
    match skipWs cs with
    | c :: rest =>
      if c = '"' then
        match parseStrAux (rest.length + 1) [] rest with
        | none => none
        | some (k, r) =>
          match skipWs r with
          | ':' :: r2 =>
            match parseVal f r2 with
            | none => none
            | some (v, r3) =>
              let r4 := skipWs r3
              match r4 with
              | ',' :: r5 => parseObjItemsLoop f r5 ((String.mk k, v) :: acc)
              | c2 :: r5 =>
                if c2 = rbrace then some (Json.obj ((String.mk k, v) :: acc).reverse, r5)
                else none
              | [] => none
          | _ => none
      else none
    | [] => none

end

/-- Models `json.Unmarshal` into a generic value (`interface` target):
exactly one JSON value, optionally surrounded by whitespace. -/
def jsonParse (s : String) : Option Json :=
  match parseVal (s.data.length + 1) s.data with
  | some (v, rest) => if skipWs rest = [] then some v else none
  | none => none

/-- The decision envelope `StructuredOutput` of `internal/agent/agent.go`:
kind, tool name, argument map, manifest map, question list, confidence and
rationale. Absent fields keep Go zero values. -/
structure StructuredOutput where
  type : String
  tool : String
  args : List (String × Json)
  manifest : List (String × Json)
  questions : List String
  confidence : Dec
  rationale : String

def emptyOutput : StructuredOutput :=
  { type := "", tool := "", args := [], manifest := [], questions := [],
    confidence := ⟨0, 0⟩, rationale := "" }

def asStringList : List Json → Option (List String)
  | [] => some []
  | Json.str s :: rest => (asStringList rest).map (fun l => s :: l)
  | _ => none

/-- Applies one JSON object member to the envelope being unmarshalled;
models `encoding/json` field decoding for the envelope struct: a `null`
value leaves the field untouched, a type mismatch is an error, unknown
keys are ignored (keys are matched case-insensitively like Go does). -/
def applyField (o : StructuredOutput) (k : String) (v : Json) : Option StructuredOutput :=
  let kl := lowerStr k
  if kl = "type" then
    match v with
    | Json.str s => some { o with type := s }
    | Json.null => some o
    | _ => none
  else if kl = "tool" then
    match v with
    | Json.str s => some { o with tool := s }
    | Json.null => some o
    | _ => none
  else if kl = "args" then
    match v with
    | Json.obj fs => some { o with args := fs }
    | Json.null => some o
    | _ => none
  else if kl = "manifest" then
    match v with
    | Json.obj fs => some { o with manifest := fs }
    | Json.null => some o
    | _ => none
  else if kl = "questions" then
    match v with
    | Json.arr xs =>
      match asStringList xs with
      | some l => some { o with questions := l }
      | none => none
    | Json.null => some o
    | _ => none
  else if kl = "confidence" then
    match v with
    | Json.num q => some { o with confidence := q }
    | Json.null => some o
    | _ => none
  else if kl = "rationale" then
    match v with
    | Json.str s => some { o with rationale := s }
    | Json.null => some o
    | _ => none
  else some o

/-- Models `json.Unmarshal` of a JSON value into the envelope struct:
the top level must be an object; members are applied in order (later
duplicates overwrite earlier ones, as with a Go map-backed decode). -/
def unmarshalOutput (j : Json) : Option StructuredOutput :=
  match j with
  | Json.obj fields => fields.foldlM (fun o p => applyField o p.1 p.2) emptyOutput
  | _ => none

/-- String value of an argument key, as the tools read it with
`args[k].(string)` (a non-string value behaves like an absent key). -/
def argsGetStr (args : List (String × Json)) (k : String) : Option String :=
  match objGet args k with
  | some (Json.str s) => some s
  | _ => none

/-- Translated from `MermaidDocumenterAgent.cleanMarkdownCodeBlocks`. -/
def cleanMarkdownCodeBlocks (response : String) : String :=
  let response := trimSpace response
  let response :=
    if startsWithStr response "```json" then
      dropTail (dropLead response "```json") "```"
    else if startsWithStr response "```" then
      dropTail (dropLead response "```") "```"
    else response
  trimSpace response

/-- The error fingerprints of `MermaidDocumenterAgent.isAPIErrorResponse`. -/
def apiErrorPats : List String :=
  ["Error 400", "Error 401", "Error 403", "Error 404", "API key not valid",
   "Model not found", "Invalid model", "unsupported model", "model does not exist",
   "INVALID_ARGUMENT", "PERMISSION_DENIED", "NOT_FOUND"]

/-- Translated from `MermaidDocumenterAgent.isAPIErrorResponse`: textual
fingerprints (case-insensitive), plus a JSON object carrying an `error`
key or both `message` and `code` keys. -/
def isAPIErrorResponse (response : String) : Bool :=
  let responseLower := lowerStr response
  apiErrorPats.any (fun p => containsSub responseLower (lowerStr p)) ||
    (if startsWithStr (trimSpace response) lbraceStr then
      match jsonParse response with
      | some (Json.obj fs) =>
        objHasKey fs "error" || (objHasKey fs "message" && objHasKey fs "code")
      | _ => false
    else false)

/-- How `MermaidDocumenterAgent.extractJSONObject` reattaches braces to
the `i`-th of `n` fragments produced by splitting on the brace pair. -/
def rejoinFragment (n i : Nat) (part : String) : String :=
  if i = 0 then part ++ rbraceStr
  else if i = n - 1 then lbraceStr ++ part
  else lbraceStr ++ part ++ rbraceStr

/-- State of the brace-depth scanner of
`MermaidDocumenterAgent.extractJSONObjectBraceCounting`. -/
structure BraceScanState where
  objectsRev : List String
  currentRev : List Char
  depth : Int
  inString : Bool
  escapeNext : Bool

/-- One character of the brace-depth scan, tracking quoted-string and
escape state; emits an object when the depth returns to zero. -/
def braceScanStep (st : BraceScanState) (c : Char) : BraceScanState :=
  let cur := c :: st.currentRev
  if c = '"' then
    let inS := if st.escapeNext then st.inString else !st.inString
    { st with currentRev := cur, inString := inS, escapeNext := false }
  else if c = '\\' then
    { st with currentRev := cur, escapeNext := !st.escapeNext }
  else if c = lbrace then
    let d := if st.inString then st.depth else st.depth + 1
    { st with currentRev := cur, depth := d, escapeNext := false }
  else if c = rbrace then
    if st.inString then { st with currentRev := cur, escapeNext := false }
    else
      let d := st.depth - 1
      if d = 0 then
        let obj := trimSpace (String.mk cur.reverse)
        let objs := if obj = "" then st.objectsRev else obj :: st.objectsRev
        { st with currentRev := [], depth := d, escapeNext := false, objectsRev := objs }
      else { st with currentRev := cur, depth := d, escapeNext := false }
  else { st with currentRev := cur, escapeNext := false }

/-- Translated from `MermaidDocumenterAgent.extractJSONObjectBraceCounting`. -/
def extractBraceCounting (response : String) : List String :=
  (response.data.foldl braceScanStep ⟨[], [], 0, false, false⟩).objectsRev.reverse

/-- The fragments `extractJSONObject` obtains by splitting on the brace
pair, reattaching braces, and keeping those that independently parse. -/
def splitFragments (response : String) : List String :=
  let parts := splitSubStr response sepBracesStr
  (parts.enum).filterMap (fun p =>
    let obj := rejoinFragment parts.length p.1 p.2
    match jsonParse obj with
    | some _ => some obj
    | none => none)

/-- Translated from `MermaidDocumenterAgent.extractJSONObject`: whole
parse first; else split on the literal brace pair, reattach braces and
keep the fragments that parse; else fall back to the brace-depth scan. -/
def extractJSONObject (response : String) : List String :=
  match jsonParse response with
  | some _ => [response]
  | none =>
    let objects :=
      if containsSub response sepBracesStr then splitFragments response
      else []
    if objects.isEmpty then extractBraceCounting response else objects

/-- Translated from `MermaidDocumenterAgent.fixCommonJSONIssues`: drop
trailing commas immediately before a closing brace or bracket (a plain
substring replacement), then trim. -/
def fixCommonJSONIssues (jsonStr : String) : String :=
  let jsonStr := replaceAll jsonStr ("," ++ rbraceStr) rbraceStr
  let jsonStr := replaceAll jsonStr ",]" "]"
  trimSpace jsonStr

/-- Translated from `MermaidDocumenterAgent.parseStructuredOutput`
(errors collapsed to `none`; the code only propagates them as opaque
failures): trim, reject upstream API errors, strip markdown fences,
extract candidate objects, repair the first and unmarshal it, and
require a non-empty `type`. -/
def parseStructuredOutput (response : String) : Option StructuredOutput :=
  let response := trimSpace response
  if isAPIErrorResponse response then none
  else
    let response := cleanMarkdownCodeBlocks response
    match extractJSONObject response with
    | [] => none
    | firstObject :: _ =>
      let firstObject := fixCommonJSONIssues firstObject
      match jsonParse firstObject with
      | none => none
      | some j =>
        match unmarshalOutput j with
        | none => none
        | some out => if out.type = "" then none else some out

def joinSlash (l : List String) : String := joinWith "/" l

def splitSlashAux : List Char → List Char → List String
  | [], cur => [String.mk cur.reverse]
  | c :: rest, cur =>
    if c = '/' then String.mk cur.reverse :: splitSlashAux rest []
    else splitSlashAux rest (c :: cur)

/-- Components of a path string, splitting on every slash. -/
def splitSlash (s : String) : List String := splitSlashAux s.data []

def isRooted (p : String) : Bool := startsWithStr p "/"

/-- One component step of the lexical simplification of `filepath.Clean`
(Unix): drop empty and dot components, resolve dot-dot against the
output so far. -/
def cleanStep (rooted : Bool) (out : List String) (comp : String) : List String :=
  if comp = "" || comp = "." then out
  else if comp = ".." then
    match out.getLast? with
    | some l => if l = ".." then out ++ [comp] else out.dropLast
    | none => if rooted then out else [comp]
  else out ++ [comp]

def cleanComps (rooted : Bool) (cs : List String) : List String :=
  cs.foldl (cleanStep rooted) []

/-- Models `filepath.Clean` on Unix (purely lexical simplification). -/
def pathClean (p : String) : String :=
  if p = "" then "."
  else
    let rooted := isRooted p
    let out := cleanComps rooted (splitSlash p)
    let res := (if rooted then "/" else "") ++ joinSlash out
    if res = "" then "." else res

/-- Models `filepath.Join` for two elements (empty elements are skipped,
the result is cleaned). -/
def pathJoin2 (a b : String) : String :=
  if a = "" then (if b = "" then "" else pathClean b)
  else if b = "" then pathClean a
  else pathClean (a ++ "/" ++ b)

def pathIsAbs (p : String) : Bool := startsWithStr p "/"

/-- Models `filepath.Abs` with the working directory made explicit (Go
resolves relative paths against `os.Getwd`): a lexical resolution, no
symlink evaluation. -/
def pathAbs (cwd p : String) : String :=
  if pathIsAbs p then pathClean p else pathJoin2 cwd p

def stripCommon : List String → List String → List String × List String
  | b :: bs, t :: ts =>
    if b = t then stripCommon bs ts else (b :: bs, t :: ts)
  | bs, ts => (bs, ts)

/-- Models `filepath.Rel` on Unix at the component level: clean both
paths, strip the common leading elements, then go up once per remaining
base element before descending into the remaining target elements. This
matches Go's string scan on the cleaned-absolute inputs the sandbox
validator passes it. -/
def pathRel (basepath targpath : String) : Option String :=
  let base := pathClean basepath
  let targ := pathClean targpath
  if targ = base then some "."
  else if isRooted base ≠ isRooted targ then none
  else
    let base := if base = "." then "" else base
    let pair := stripCommon (splitSlash base) (splitSlash targ)
    let bl := pair.1.filter (fun c => c ≠ "")
    let tl := pair.2.filter (fun c => c ≠ "")
    match bl with
    | ".." :: _ => none
    | _ => some (joinSlash (List.replicate bl.length ".." ++ tl))

/-- Environment of the sandbox validator: the home directory as
`os.UserHomeDir` reports it (`none` models failure), the process working
directory, and the `currentProject.rootDir` parsed from
`~/mermaid-agent-documenter/config.json` when that file exists and
parses (`none` otherwise). -/
structure SandboxEnv where
  homeDir : Option String
  cwd : String
  configProject : Option String

/-- The allowed base directories of `validatePath`. -/
def allowedDirs (env : SandboxEnv) (home : String) : List String :=
  [pathJoin2 home "mermaid-agent-documenter"] ++ env.configProject.toList

/-- Translated from `validatePath` (identical in
`ReadFileContentsTool` and the `WriteFileContentsTool` revision that
validates): accept when the absolute form of the path, relative to the
absolute form of some allowed directory, does not start with the string
dot-dot; reject by default. -/
def validatePath (env : SandboxEnv) (path : String) : Except String Unit :=
  match env.homeDir with
  | none => Except.error "failed to get home directory"
  | some home =>
    let absPath := pathAbs env.cwd path
    let ok := (allowedDirs env home).any (fun dir =>
      match pathRel (pathAbs env.cwd dir) absPath with
      | some rel => !(startsWithStr rel "..")
      | none => false)
    if ok then Except.ok ()
    else Except.error ("path '" ++ path ++ "' is outside allowed directories. File operations are only allowed within ~/mermaid-agent-documenter/ or the current project directory")

/-- Normalized result of one tool execution (`tools.ToolResult`): success
flag, optional structured payload (`Data`, `nil` modelled as `none`) and
error text. -/
structure ToolResult where
  success : Bool
  data : Option Json
  error : String

/-- Filesystem operations a tool performs, in order; `validated` marks a
successful sandbox validation, every other constructor touches the
filesystem. -/
inductive FsOp where
  | validated (p : String)
  | readDir (p : String)
  | statPath (p : String)
  | openRead (p : String)
  | mkdirAll (p : String)
  | writeFile (p : String)

/-- Whether every filesystem-touching operation in the trace is preceded
by a successful validation. -/
def sandboxedFrom (seen : Bool) : List FsOp → Bool
  | [] => true
  | FsOp.validated _ :: rest => sandboxedFrom true rest
  | _ :: rest => seen && sandboxedFrom seen rest

def sandboxedTrace (t : List FsOp) : Bool := sandboxedFrom false t

/-- Environment the tools run against: the sandbox configuration plus an
abstract filesystem (existence, directory listings, file contents) and
the success of the write-side operations. -/
structure ToolEnv where
  sandbox : SandboxEnv
  fileExists : String → Bool
  mkdirOk : String → Bool
  writeOk : String → Bool
  openOk : String → Bool
  readDirEntries : String → Option (List (String × Bool))
  fileContent : String → String

/-- Models `filepath.Dir` on Unix: everything up to the final separator,
cleaned. -/
def pathDir (p : String) : String :=
  let r := p.data.reverse
  let cut := r.dropWhile (fun c => c ≠ '/')
  pathClean (String.mk cut.reverse)

/-- Truncation of an exact decimal toward zero, as Go's
`int64(float64)` conversion behaves on the in-range values the tools
see (`Int.div` rounds toward zero). -/
def decTrunc (d : Dec) : Int :=
  if 0 ≤ d.e then d.m * 10 ^ d.e.toNat else Int.tdiv d.m (10 ^ (-d.e).toNat)

/-- Models `strconv.ParseInt` base 10 on the strings the tools accept. -/
def parseIntStr (s : String) : Option Int :=
  let (neg, ds) :=
    match s.data with
    | '-' :: rest => (true, rest)
    | '+' :: rest => (false, rest)
    | l => (false, l)
  if ds.isEmpty || !(ds.all Char.isDigit) then none
  else
    let n : Int := (digitsToNat ds : Int)
    some (if neg then -n else n)

/-- Translated from `ReadDirectoriesTool.Execute`
(`internal/tools/readDirectories.go`): reads the `path` argument and
lists the directory; no sandbox validation is performed. Returns the
result and the filesystem trace. -/
def readDirectoriesExecute (env : ToolEnv) (args : List (String × Json)) :
    ToolResult × List FsOp :=
  match argsGetStr args "path" with
  | none => (⟨false, none, "Missing or invalid 'path' argument"⟩, [])
  | some path =>
    match env.readDirEntries path with
    | none => (⟨false, none, "read error"⟩, [FsOp.readDir path])
    | some entries =>
      let dirs := (entries.filter (fun e => e.2)).map (fun e => Json.str (pathJoin2 path e.1))
      let files := (entries.filter (fun e => !e.2)).map (fun e => Json.str (pathJoin2 path e.1))
      (⟨true, some (Json.obj [("directories", Json.arr dirs), ("files", Json.arr files)]), ""⟩,
        [FsOp.readDir path])

/-- Translated from `ReadFileContentsTool.Execute`
(`internal/tools/readFileContents.go`): reads the `path` argument,
validates it, interprets `maxBytes`, then opens and reads the file. -/
def readFileContentsExecute (env : ToolEnv) (args : List (String × Json)) :
    ToolResult × List FsOp :=
  match argsGetStr args "path" with
  | none => (⟨false, none, "Missing or invalid 'path' argument"⟩, [])
  | some path =>
    match validatePath env.sandbox path with
    | Except.error e => (⟨false, none, e⟩, [])
    | Except.ok _ =>
      let tr := [FsOp.validated path]
      let maxBytes : Int :=
        match objGet args "maxBytes" with
        | some (Json.num q) => decTrunc q
        | some (Json.str s) =>
          match parseIntStr s with
          | some n => n
          | none => -1
        | _ => -1
      if !(env.openOk path) then (⟨false, none, "open error"⟩, tr ++ [FsOp.openRead path])
      else
        let content := env.fileContent path
        let tr := tr ++ [FsOp.openRead path]
        if 0 < maxBytes then
          if content.data.isEmpty then (⟨false, none, "EOF"⟩, tr)
          else
            let data := content.data.take maxBytes.toNat
            let truncated := maxBytes ≤ (data.length : Int)
            (⟨true, some (Json.obj [("path", Json.str path),
              ("content", Json.str (String.mk data)), ("truncated", Json.bool truncated)]), ""⟩, tr)
        else
          (⟨true, some (Json.obj [("path", Json.str path),
            ("content", Json.str content), ("truncated", Json.bool false)]), ""⟩, tr)

def failExistsMsg : String :=
  "File exists and overwrite is set to 'explicit'. Use overwrite='allow' to overwrite."

/-- The effective overwrite policy of `WriteFileContentsTool.Execute`:
the `overwrite` argument only when it is the string `explicit` or
`allow`; otherwise the default `allow`. -/
def effectiveOverwrite (args : List (String × Json)) : String :=
  match argsGetStr args "overwrite" with
  | some ow => if ow = "explicit" || ow = "allow" then ow else "allow"
  | none => "allow"

/-- Translated from `WriteFileContentsTool.Execute` (the revision with
`validatePath`, the one its unit tests exercise): validate the path,
read `content`, `createDirs` and `overwrite`, expand a leading tilde,
create parent directories, enforce the overwrite policy against an
existing file, and write. -/
def writeFileContentsExecute (env : ToolEnv) (args : List (String × Json)) :
    ToolResult × List FsOp :=
  match argsGetStr args "path" with
  | none => (⟨false, none, "Missing or invalid 'path' argument"⟩, [])
  | some path =>
    match validatePath env.sandbox path with
    | Except.error e => (⟨false, none, e⟩, [])
    | Except.ok _ =>
      let tr := [FsOp.validated path]
      match argsGetStr args "content" with
      | none => (⟨false, none, "Missing or invalid 'content' argument"⟩, tr)
      | some content =>
        let createDirs :=
          match objGet args "createDirs" with
          | some (Json.bool b) => b
          | _ => true
        let overwrite := effectiveOverwrite args
        let expanded :=
          if startsWithStr path "~" then
            match env.sandbox.homeDir with
            | none => none
            | some home => some (home ++ String.mk (path.data.drop 1))
          else some path
        match expanded with
        | none => (⟨false, none, "Failed to get home directory"⟩, tr)
        | some path =>
          if createDirs && !(env.mkdirOk (pathDir path)) then
            (⟨false, none, "Failed to create directories"⟩, tr ++ [FsOp.mkdirAll (pathDir path)])
          else
            let tr := tr ++ (if createDirs then [FsOp.mkdirAll (pathDir path)] else [])
            let tr := tr ++ [FsOp.statPath path]
            if env.fileExists path && overwrite = "explicit" then
              (⟨false, none, failExistsMsg⟩, tr)
            else if !(env.writeOk path) then
              (⟨false, none, "Failed to write file"⟩, tr ++ [FsOp.writeFile path])
            else
              (⟨true, some (Json.obj [("path", Json.str path),
                ("bytesWritten", Json.num ⟨(content.length : Int), 0⟩)]), ""⟩,
                tr ++ [FsOp.writeFile path])

/-- One conversation turn (`role`, `content`); the transcript is
append-only. -/
structure Turn where
  role : String
  content : String
deriving DecidableEq

/-- One line of the per-run `logs.jsonl` log, as `logInteraction` builds
it (timestamps, run id, provider and model omitted: they are constants of
the run and no claim concerns them). -/
structure LogEntry where
  step : Nat
  outputType : String
  confidence : Dec
  rationale : String
  tool : Option String
  args : Option (List (String × Json))
  manifest : Option (List (String × Json))
  withCoT : Bool

/-- The controller configuration (`AgentConfig`), restricted to the
fields `Run`, `modifyFilePaths` and `logInteraction` read. -/
structure AgentConfig where
  maxSteps : Nat
  confidenceThreshold : Dec
  outputDir : String
  logsDir : String
  storeChainOfThought : Bool

/-- The run state owned by the controller: the step counter and the
consecutive-failure counter of `MermaidDocumenterAgent`, plus observable
history (calls made, dispatches performed with their argument maps, log
lines, conversation turns, and whether the failure breaker fired —
the breaker branch is observable through its console warning). -/
structure RunState where
  stepCount : Nat
  consecutiveFails : Nat
  llmCalls : Nat
  dispatches : Nat
  dispatched : List (String × List (String × Json))
  logs : List LogEntry
  conv : List Turn
  breakerTripped : Bool

/-- Terminal outcomes of `Run`: `ok` is the `nil` error return (reached
both by an accepted final manifest and by the failure breaker), the
others are the distinct non-nil error returns. -/
inductive RunOutcome where
  | ok
  | cancelled
  | llmError
  | parseError
  | clarificationNeeded
  | maxStepsExceeded
deriving DecidableEq

/-- Translated from `MermaidDocumenterAgent.modifyFilePaths`: relative
`path` and `inputFile` string arguments are prefixed with the output
directory; everything else is copied unchanged. -/
def rewriteArg (outputDir : String) (k : String) (v : Json) : Json :=
  if k = "path" || k = "inputFile" then
    match v with
    | Json.str s =>
      if !(startsWithStr s "/") && !(startsWithStr s "~") && !(pathIsAbs s) then
        Json.str (pathJoin2 outputDir s)
      else Json.str s
    | _ => v
  else v

def modifyFilePaths (outputDir : String) (args : List (String × Json)) :
    List (String × Json) :=
  args.map (fun p => (p.1, rewriteArg outputDir p.1 p.2))

/-- The log line `logInteraction` writes for one decision: tool-call
decisions record the tool and the argument map of the envelope; final
decisions record the manifest; the conversation and raw response are
included only in the chain-of-thought mode. -/
def mkLogEntry (cfg : AgentConfig) (st : RunState) (out : StructuredOutput) : LogEntry :=
  { step := st.stepCount + 1, outputType := out.type, confidence := out.confidence,
    rationale := out.rationale,
    tool := if out.type = "tool_call" then some out.tool else none,
    args := if out.type = "tool_call" then some out.args else none,
    manifest := if out.type = "final" then some out.manifest else none,
    withCoT := cfg.storeChainOfThought }

/-- Translated from `MermaidDocumenterAgent.logInteraction`: nothing is
recorded when no logs directory is configured; logging failures only
print warnings, so the success path is modelled. -/
def logInteraction (cfg : AgentConfig) (st : RunState) (out : StructuredOutput) :
    List LogEntry :=
  if cfg.logsDir = "" then st.logs else st.logs ++ [mkLogEntry cfg st out]

def reconsiderMsg : String :=
  "Your confidence is below the threshold. Please provide clarification or reconsider your approach."

/-- The corrective system turn appended after a failed dispatch. -/
def toolFailureTurnContent (err : String) : String :=
  let m := "Tool execution failed: " ++ err ++ ". "
  let m :=
    if containsSub err "Mermaid CLI error" then
      m ++ "This is likely due to invalid Mermaid syntax. Check your diagram syntax, especially ER diagrams which should use semicolons (;) not commas (,) to separate attributes. "
    else m
  m ++ "Please fix the issue and try again, or return a final manifest if you cannot resolve it. You MUST respond with valid JSON tool calls or final manifest."

/-- Rendering of `fmt.Sprintf` with the tool result (the exact text is
irrelevant to every claim; only the fact that a result turn is appended
matters). -/
def renderToolResult (r : ToolResult) : String :=
  "Tool result: " ++ (if r.success then "success" else r.error)

/-- Result of one loop iteration: continue with a new state, or return
from `Run` with an outcome. -/
inductive StepResult where
  | next (st : RunState)
  | halt (o : RunOutcome) (st : RunState)

/-- One iteration of the `Run` loop (entered when the loop guard
`stepCount < maxSteps` held), translated from
`MermaidDocumenterAgent.Run`. The model provider is an oracle indexed by
the number of calls made so far (`none` models a transport error), the
dispatcher is an oracle indexed by the number of dispatches so far, and
cancellation is an oracle checked at the top of the iteration. -/
def runStep (cfg : AgentConfig) (provider : Nat → Option String)
    (toolExec : Nat → ToolResult) (ctxDone : Nat → Bool) (st : RunState) : StepResult :=
  if ctxDone st.llmCalls then StepResult.halt RunOutcome.cancelled st
  else
    match provider st.llmCalls with
    | none => StepResult.halt RunOutcome.llmError { st with llmCalls := st.llmCalls + 1 }
    | some response =>
      let st := { st with llmCalls := st.llmCalls + 1 }
      match parseStructuredOutput response with
      | none => StepResult.halt RunOutcome.parseError st
      | some out =>
        let st := { st with logs := logInteraction cfg st out }
        if out.type = "tool_call" then
          if Dec.blt out.confidence cfg.confidenceThreshold then
            StepResult.next { st with conv := st.conv ++ [Turn.mk "assistant" response, Turn.mk "user" reconsiderMsg] }
          else
            let modifiedArgs := modifyFilePaths cfg.outputDir out.args
            let result := toolExec st.dispatches
            let st2 := { st with dispatches := st.dispatches + 1, dispatched := st.dispatched ++ [(out.tool, modifiedArgs)] }
            let resultTurns := [Turn.mk "assistant" response, Turn.mk "user" (renderToolResult result)]
            if result.success && result.data.isSome then
              let st3 := { st2 with consecutiveFails := 0 }
              StepResult.next { st3 with conv := st3.conv ++ resultTurns, stepCount := st3.stepCount + 1 }
            else if !result.success then
              let fails := st2.consecutiveFails + 1
              if 3 ≤ fails then
                StepResult.halt RunOutcome.ok { st2 with consecutiveFails := fails, breakerTripped := true }
              else
                let st3 := { st2 with consecutiveFails := fails, conv := st2.conv ++ [Turn.mk "system" (toolFailureTurnContent result.error)] }
                StepResult.next { st3 with conv := st3.conv ++ resultTurns, stepCount := st3.stepCount + 1 }
            else
              StepResult.next { st2 with conv := st2.conv ++ resultTurns, stepCount := st2.stepCount + 1 }
        else if out.type = "final" then
          if Dec.ble cfg.confidenceThreshold out.confidence then
            StepResult.halt RunOutcome.ok st
          else
            StepResult.next { st with conv := st.conv ++ [Turn.mk "assistant" response, Turn.mk "user" reconsiderMsg] }
        else if out.type = "clarification" then
          StepResult.halt RunOutcome.clarificationNeeded st
        else
          StepResult.next st

/-- A run in progress (fuel exhausted before a terminal action, which is
possible: not every iteration charges the step counter) or finished. -/
inductive RunResult where
  | finished (o : RunOutcome) (st : RunState)
  | running (st : RunState)

def RunResult.state : RunResult → RunState
  | RunResult.finished _ st => st
  | RunResult.running st => st

/-- The `Run` loop: the guard `stepCount < maxSteps` is checked at the
top of every iteration; `fuel` bounds how many iterations we observe
(the Go loop itself has no such bound). -/
def runLoop (cfg : AgentConfig) (provider : Nat → Option String)
    (toolExec : Nat → ToolResult) (ctxDone : Nat → Bool) :
    Nat → RunState → RunResult
  | 0, st => RunResult.running st
  | fuel + 1, st =>
    if st.stepCount < cfg.maxSteps then
      match runStep cfg provider toolExec ctxDone st with
      | StepResult.next st2 => runLoop cfg provider toolExec ctxDone fuel st2
      | StepResult.halt o st2 => RunResult.finished o st2
    else
      RunResult.finished RunOutcome.maxStepsExceeded st

/-- System prompt and opening user turn of `Run` (the literal prompt
text of `buildSystemPrompt` is abbreviated: no claim depends on it). -/
def initConv (transcript : String) : List Turn :=
  [Turn.mk "system" "You are Mermaid Documenter Agent.",
   Turn.mk "user" ("Please analyze this application transcript and generate Mermaid documentation:\n\n" ++ transcript)]

/-- The state `Run` starts from (`NewMermaidDocumenterAgent` zeroes the
counters). -/
def initState (transcript : String) : RunState :=
  { stepCount := 0, consecutiveFails := 0, llmCalls := 0, dispatches := 0,
    dispatched := [], logs := [], conv := initConv transcript, breakerTripped := false }

/-- A whole run from the initial state. -/
def runAgent (cfg : AgentConfig) (provider : Nat → Option String)
    (toolExec : Nat → ToolResult) (ctxDone : Nat → Bool) (transcript : String)
    (fuel : Nat) : RunResult :=
  runLoop cfg provider toolExec ctxDone fuel (initState transcript)

def stepState : StepResult → RunState
  | StepResult.next st => st
  | StepResult.halt _ st => st

def outcomeOf : RunResult → Option RunOutcome
  | RunResult.finished o _ => some o
  | RunResult.running _ => none

def isRunning : RunResult → Bool
  | RunResult.finished _ _ => false
  | RunResult.running _ => true

/-- Non-empty components of a (cleaned absolute) path. -/
def pathComps (p : String) : List String := (splitSlash p).filter (fun c => c ≠ "")

/-- Component-wise prefix test: `compsLe a b` holds when the path with
components `b` equals or descends from the path with components `a`. -/
def compsLe : List String → List String → Bool
  | [], _ => true
  | _ :: _, [] => false
  | a :: as, b :: bs => a = b && compsLe as bs

/-- Value of the consecutive-failure counter after the first `k` results
of the dispatch oracle, following exactly the transitions of `Run`:
increment on failure, reset on a success with a non-nil payload,
unchanged on a success with a nil payload. -/
def failStreak (te : Nat → ToolResult) : Nat → Nat
  | 0 => 0
  | k + 1 =>
    let r := te k
    if !r.success then failStreak te k + 1
    else if r.data.isSome then 0
    else failStreak te k

/-- The envelope a JSON document denotes (plain unmarshal, no repair). -/
def envOf (s : String) : Option StructuredOutput := (jsonParse s).bind unmarshalOutput

/-- Path argument of the single dispatched call of a state (used to
inspect one-step runs). -/
def dispatchedPathOf (st : RunState) : Option String :=
  match st.dispatched with
  | [(_, a)] => argsGetStr a "path"
  | _ => none

/-- Path argument recorded in the single log line of a state. -/
def loggedPathOf (st : RunState) : Option String :=
  match st.logs with
  | [e] =>
    match e.args with
    | some a => argsGetStr a "path"
    | none => none
  | _ => none

/-- Sandbox fixture: home `/home/u`, working directory `/home/u`, no
active project. -/
def envS : SandboxEnv := { homeDir := some "/home/u", cwd := "/home/u", configProject := none }

/-- Tool environment fixture over `envS`: `/etc` exists and lists one
plain file, every path exists, directory creation and writes succeed. -/
def envT : ToolEnv :=
  { sandbox := envS, fileExists := fun _ => true, mkdirOk := fun _ => true,
    writeOk := fun _ => true, openOk := fun _ => true,
    readDirEntries := fun p => if p = "/etc" then some [("passwd", false)] else none,
    fileContent := fun _ => "data" }

/-- Controller configuration fixture: budget 10, threshold 0.9, output
directory `/out`, logs directory `/logs`. -/
def cfgA : AgentConfig :=
  { maxSteps := 10, confidenceThreshold := ⟨9, -1⟩, outputDir := "/out", logsDir := "/logs",
    storeChainOfThought := false }

/-- Like `cfgA` with budget 1 (used to watch the loop overrun it). -/
def cfgB : AgentConfig :=
  { maxSteps := 1, confidenceThreshold := ⟨9, -1⟩, outputDir := "/out", logsDir := "/logs",
    storeChainOfThought := false }

/-- A high-confidence `tool_call` reply with a relative `path`. -/
def rsToolHigh : String :=
  "\x7b\"type\":\"tool_call\",\"tool\":\"writeFileContents\",\"args\":\x7b\"path\":\"summary.md\"\x7d,\"confidence\":0.95,\"rationale\":\"w\"\x7d"

/-- The same `tool_call` with confidence 0.2, below the 0.9 threshold. -/
def rsToolLow : String :=
  "\x7b\"type\":\"tool_call\",\"tool\":\"writeFileContents\",\"args\":\x7b\"path\":\"summary.md\"\x7d,\"confidence\":0.2,\"rationale\":\"w\"\x7d"

/-- A high-confidence `final` reply. -/
def rsFinalHigh : String :=
  "\x7b\"type\":\"final\",\"manifest\":\x7b\x7d,\"confidence\":0.95,\"rationale\":\"d\"\x7d"

/-- A low-confidence `final` reply. -/
def rsFinalLow : String :=
  "\x7b\"type\":\"final\",\"manifest\":\x7b\x7d,\"confidence\":0.2,\"rationale\":\"d\"\x7d"

/-- Two concatenated envelopes with no separator (the decoder test case
of the specification). -/
def concatExample : String := rsToolHigh ++ rsFinalHigh

/-- A `final` envelope with a trailing comma before the closing brace. -/
def tcExample : String :=
  "\x7b\"type\":\"final\",\"confidence\":0.95,\"rationale\":\"done\",\x7d"

/-- The same envelope without the trailing comma. -/
def tcExampleClean : String :=
  "\x7b\"type\":\"final\",\"confidence\":0.95,\"rationale\":\"done\"\x7d"

/-- An envelope whose rationale contains a comma followed by a closing
brace, without a trailing comma. -/
def cxClean : String :=
  "\x7b\"type\":\"final\",\"confidence\":1,\"rationale\":\"a,\x7db\"\x7d"

/-- The same envelope with a trailing comma added. -/
def cxComma : String :=
  "\x7b\"type\":\"final\",\"confidence\":1,\"rationale\":\"a,\x7db\",\x7d"

/-- Provider oracle returning the same reply on every call. -/
def provConst (s : String) : Nat → Option String := fun _ => some s

/-- Cancellation oracle that never fires. -/
def ctxNever : Nat → Bool := fun _ => false

/-- Dispatch oracle taking results from a list (failing with an empty
payload past its end). -/
def teOf (l : List ToolResult) : Nat → ToolResult :=
  fun k => l.getD k ⟨false, none, "end"⟩

def trFail : ToolResult := ⟨false, none, "boom"⟩

def trSuccSome : ToolResult := ⟨true, some (Json.obj [("path", Json.str "/out/summary.md")]), ""⟩

def trSuccNone : ToolResult := ⟨true, none, ""⟩

/-- Dispatch oracle that always fails. -/
def teFail : Nat → ToolResult := fun _ => trFail

/-- Dispatch oracle that always succeeds with a payload. -/
def teSucc : Nat → ToolResult := fun _ => trSuccSome

/-- Five failures interleaved with one payload-carrying success. -/
def teFiveOne : Nat → ToolResult :=
  teOf [trFail, trFail, trSuccSome, trFail, trFail, trFail]

/-- Failure, failure, then a success with a nil payload, then failure. -/
def teNilData : Nat → ToolResult := teOf [trFail, trFail, trSuccNone, trFail]

/-- The transition of the consecutive-failure counter at one dispatch,
as `Run` performs it: increment on failure, reset on a success with a
non-nil payload, unchanged on a success with a nil payload. -/
def failsUpd (r : ToolResult) (f : Nat) : Nat :=
  if !r.success then f + 1 else if r.data.isSome then 0 else f

/-- C1 counterexample: `ReadDirectoriesTool.Execute` lists `/etc` — a
path the sandbox validator rejects — without ever invoking the
validator, so a filesystem operation is reachable with no prior
successful validation. -/
theorem c1_counterexample :
    sandboxedTrace (readDirectoriesExecute envT [("path", Json.str "/etc")]).2 = false
    ∧ (readDirectoriesExecute envT [("path", Json.str "/etc")]).1.success = true
    ∧ (validatePath envS "/etc").isOk = false := by
  decide

/-- C4 counterexample: the path `/home/u/mermaid-agent-documenter/..x`
resolves to itself, equals the sandbox root followed by `/..x` and
descends from it component-wise, yet `validatePath` rejects it (the
lexical relative path `..x` starts with the string dot-dot), so
acceptance is not equivalent to descending from a sandbox root. -/
theorem c4_counterexample :
    (validatePath envS "/home/u/mermaid-agent-documenter/..x").isOk = false
    ∧ pathAbs envS.cwd "/home/u/mermaid-agent-documenter/..x"
        = pathAbs envS.cwd (pathJoin2 "/home/u" "mermaid-agent-documenter") ++ "/..x"
    ∧ compsLe (pathComps (pathAbs envS.cwd (pathJoin2 "/home/u" "mermaid-agent-documenter")))
        (pathComps (pathAbs envS.cwd "/home/u/mermaid-agent-documenter/..x")) = true := by
  decide

/-- C2 counterexample: a run with three consecutive dispatch failures
returns the same `nil` (success) outcome as a run that completes through
an accepted final manifest — there is no distinct `AbortedByFailureStreak`
outcome; moreover five failures interleaved with one payload-carrying
success (the pattern the claim says never terminates) do trip the
breaker and terminate the run. -/
theorem c2_counterexample :
    outcomeOf (runAgent cfgA (provConst rsToolHigh) teFail ctxNever "t" 10) = some RunOutcome.ok
    ∧ (runAgent cfgA (provConst rsToolHigh) teFail ctxNever "t" 10).state.breakerTripped = true
    ∧ (runAgent cfgA (provConst rsToolHigh) teFail ctxNever "t" 10).state.dispatches = 3
    ∧ outcomeOf (runAgent cfgA (provConst rsFinalHigh) teSucc ctxNever "t" 10) = some RunOutcome.ok
    ∧ (runAgent cfgA (provConst rsFinalHigh) teSucc ctxNever "t" 10).state.breakerTripped = false
    ∧ (runAgent cfgA (provConst rsToolHigh) teFiveOne ctxNever "t" 10).state.breakerTripped = true
    ∧ outcomeOf (runAgent cfgA (provConst rsToolHigh) teFiveOne ctxNever "t" 10) = some RunOutcome.ok := by
  decide

/-- C3 counterexample: with a budget of one step and a model that keeps
answering a low-confidence tool call, the loop is still running after
three iterations (three provider calls) with the step counter still at
zero — low-confidence iterations do not charge the step, and the loop
does not terminate within `maxSteps` iterations. -/
theorem c3_counterexample :
    isRunning (runAgent cfgB (provConst rsToolLow) teSucc ctxNever "t" 3) = true
    ∧ (runAgent cfgB (provConst rsToolLow) teSucc ctxNever "t" 3).state.stepCount = 0
    ∧ (runAgent cfgB (provConst rsToolLow) teSucc ctxNever "t" 3).state.llmCalls = 3
    ∧ cfgB.maxSteps = 1 := by
  decide

/-- C8 counterexample: the third dispatch succeeds with a nil payload,
yet the consecutive-failure counter keeps its value 2 instead of
resetting to zero. -/
theorem c8_counterexample :
    (teNilData 2).success = true ∧ (teNilData 2).data.isSome = false
    ∧ (runAgent cfgA (provConst rsToolHigh) teNilData ctxNever "t" 3).state.dispatches = 3
    ∧ (runAgent cfgA (provConst rsToolHigh) teNilData ctxNever "t" 3).state.consecutiveFails = 2 := by
  decide

/-- C9 counterexample: for a dispatched tool call with relative path
`summary.md` and output directory `/out`, the log entry records the
pre-rewrite argument `summary.md` while the dispatcher received the
rewritten `/out/summary.md`. -/
theorem c9_counterexample :
    loggedPathOf (runAgent cfgA (provConst rsToolHigh) teSucc ctxNever "t" 1).state = some "summary.md"
    ∧ dispatchedPathOf (runAgent cfgA (provConst rsToolHigh) teSucc ctxNever "t" 1).state
        = some "/out/summary.md"
    ∧ ("summary.md" : String) ≠ "/out/summary.md" := by
  decide

/-- C7 counterexample: the trailing-comma reply whose rationale contains
a comma-brace pair decodes to rationale `a` brace `b`, not to the
rationale of the envelope the comma-less input denotes — the comma
repair is a plain substring replacement and rewrites string contents. -/
theorem c7_counterexample :
    (parseStructuredOutput cxComma).map (fun o => o.rationale) = some ("a" ++ rbraceStr ++ "b")
    ∧ (envOf cxClean).map (fun o => o.rationale) = some ("a," ++ rbraceStr ++ "b")
    ∧ ("a" ++ rbraceStr ++ "b") ≠ ("a," ++ rbraceStr ++ "b") := by
  decide

theorem sandboxedFrom_true (t : List FsOp) : sandboxedFrom true t = true := by
  induction t with
  | nil => rfl
  | cons op rest ih => cases op <;> simp [sandboxedFrom, ih]

/-- C1 amended: the two tools that do invoke the validator —
`readFileContentsTool` and the validating revision of
`writeFileContentsTool` — touch the filesystem only after a successful
validation, for every environment and argument map. -/
theorem c1_amended (env : ToolEnv) (args : List (String × Json)) :
    sandboxedTrace (readFileContentsExecute env args).2 = true
    ∧ sandboxedTrace (writeFileContentsExecute env args).2 = true := by
  constructor
  · unfold readFileContentsExecute
    rcases hp : argsGetStr args "path" with _ | path
    · simp [sandboxedTrace, sandboxedFrom]
    · rcases hv : validatePath env.sandbox path with e | u
      · simp [hv, sandboxedTrace, sandboxedFrom]
      · simp only [hv]
        repeat' split
        all_goals simp [sandboxedTrace, sandboxedFrom, sandboxedFrom_true]
  · unfold writeFileContentsExecute
    rcases hp : argsGetStr args "path" with _ | path
    · simp [sandboxedTrace, sandboxedFrom]
    · rcases hv : validatePath env.sandbox path with e | u
      · simp [hv, sandboxedTrace, sandboxedFrom]
      · rcases hc : argsGetStr args "content" with _ | content
        · simp [hv, hc, sandboxedTrace, sandboxedFrom]
        · simp only [hv, hc]
          repeat' split
          all_goals simp [sandboxedTrace, sandboxedFrom, sandboxedFrom_true]

/-- C5: a decision of kind `tool_call` or `final` with confidence
strictly below the threshold never reaches the dispatcher in its
iteration: the iteration continues with the same dispatch counter and
dispatch history, and appends the assistant turn plus the
reconsideration turn. -/
theorem c5_low_confidence_never_dispatches (cfg : AgentConfig)
    (provider : Nat → Option String) (toolExec : Nat → ToolResult) (ctxDone : Nat → Bool)
    (st : RunState) (response : String) (out : StructuredOutput)
    (hctx : ctxDone st.llmCalls = false)
    (hprov : provider st.llmCalls = some response)
    (hparse : parseStructuredOutput response = some out)
    (hkind : out.type = "tool_call" ∨ out.type = "final")
    (hconf : Dec.blt out.confidence cfg.confidenceThreshold = true) :
    ∃ st2, runStep cfg provider toolExec ctxDone st = StepResult.next st2
      ∧ st2.dispatches = st.dispatches
      ∧ st2.dispatched = st.dispatched
      ∧ st2.conv = st.conv ++ [Turn.mk "assistant" response, Turn.mk "user" reconsiderMsg] := by
  rcases hkind with h | h <;>
    simp only [runStep, hctx, hprov, hparse, h, hconf, Dec.ble, Bool.false_eq_true,
      if_false, reduceCtorEq, reduceIte, Bool.not_true] <;>
    exact ⟨_, rfl, rfl, rfl, rfl⟩

theorem runStep_next_spec (cfg : AgentConfig) (provider : Nat → Option String)
    (toolExec : Nat → ToolResult) (ctxDone : Nat → Bool) (st st2 : RunState)
    (h : runStep cfg provider toolExec ctxDone st = StepResult.next st2) :
    st2.breakerTripped = st.breakerTripped ∧
    ((st2.dispatches = st.dispatches ∧ st2.stepCount = st.stepCount ∧
      st2.consecutiveFails = st.consecutiveFails) ∨
     (st2.dispatches = st.dispatches + 1 ∧ st2.stepCount = st.stepCount + 1 ∧
      st2.consecutiveFails = failsUpd (toolExec st.dispatches) st.consecutiveFails ∧
      ((toolExec st.dispatches).success = false → st2.consecutiveFails < 3))) := by
  unfold runStep at h
  cases hct : ctxDone st.llmCalls with
  | true => simp only [hct, if_true] at h; exact absurd h (by simp)
  | false =>
  simp only [hct, Bool.false_eq_true, if_false] at h
  cases hpr : provider st.llmCalls with
  | none => simp only [hpr] at h; exact absurd h (by simp)
  | some response =>
  simp only [hpr] at h
  cases hpx : parseStructuredOutput response with
  | none => simp only [hpx] at h; exact absurd h (by simp)
  | some out =>
  simp only [hpx] at h
  generalize hr : toolExec st.dispatches = r at h ⊢
  repeat' split at h
  all_goals first
    | (cases h; exact ⟨rfl, Or.inl ⟨rfl, rfl, rfl⟩⟩)
    | (cases h; refine ⟨rfl, Or.inr ⟨rfl, rfl, ?_, ?_⟩⟩ <;> simp_all [failsUpd] <;> omega)
    | cases h

theorem runStep_halt_spec (cfg : AgentConfig) (provider : Nat → Option String)
    (toolExec : Nat → ToolResult) (ctxDone : Nat → Bool) (st st2 : RunState)
    (o : RunOutcome) (h : runStep cfg provider toolExec ctxDone st = StepResult.halt o st2) :
    (st2.breakerTripped = st.breakerTripped ∧ st2.dispatches = st.dispatches ∧
     st2.consecutiveFails = st.consecutiveFails) ∨
    (st2.breakerTripped = true ∧ o = RunOutcome.ok ∧
     st2.dispatches = st.dispatches + 1 ∧
     st2.consecutiveFails = st.consecutiveFails + 1 ∧ 3 ≤ st.consecutiveFails + 1 ∧
     (toolExec st.dispatches).success = false) := by
  unfold runStep at h
  cases hct : ctxDone st.llmCalls with
  | true => simp only [hct, if_true] at h; cases h; exact Or.inl ⟨rfl, rfl, rfl⟩
  | false =>
  simp only [hct, Bool.false_eq_true, if_false] at h
  cases hpr : provider st.llmCalls with
  | none => simp only [hpr] at h; cases h; exact Or.inl ⟨rfl, rfl, rfl⟩
  | some response =>
  simp only [hpr] at h
  cases hpx : parseStructuredOutput response with
  | none => simp only [hpx] at h; cases h; exact Or.inl ⟨rfl, rfl, rfl⟩
  | some out =>
  simp only [hpx] at h
  generalize hr : toolExec st.dispatches = r at h ⊢
  repeat' split at h
  all_goals first
    | (cases h; exact Or.inl ⟨rfl, rfl, rfl⟩)
    | (cases h; refine Or.inr ⟨rfl, rfl, rfl, rfl, ?_, ?_⟩ <;> simp_all)
    | cases h

theorem failStreak_succ (te : Nat → ToolResult) (k : Nat) :
    failStreak te (k + 1) = failsUpd (te k) (failStreak te k) := rfl

theorem runLoop_fails_inv (cfg : AgentConfig) (provider : Nat → Option String)
    (toolExec : Nat → ToolResult) (ctxDone : Nat → Bool) :
    ∀ fuel st, st.breakerTripped = false →
      st.consecutiveFails = failStreak toolExec st.dispatches →
      st.consecutiveFails ≤ 2 →
      let res := runLoop cfg provider toolExec ctxDone fuel st
      res.state.consecutiveFails = failStreak toolExec res.state.dispatches
      ∧ (res.state.breakerTripped = true →
          outcomeOf res = some RunOutcome.ok ∧ res.state.consecutiveFails = 3
          ∧ 3 ≤ failStreak toolExec res.state.dispatches)
      ∧ (res.state.breakerTripped = false → res.state.consecutiveFails ≤ 2) := by
  intro fuel
  induction fuel with
  | zero =>
    intro st hbr hinv hle
    exact ⟨hinv, fun hb => absurd (hbr ▸ hb) (by simp), fun _ => hle⟩
  | succ fuel ih =>
    intro st hbr hinv hle
    show (let res := runLoop cfg provider toolExec ctxDone (fuel + 1) st; _)
    rw [runLoop]
    by_cases hguard : st.stepCount < cfg.maxSteps
    · rw [if_pos hguard]
      cases hs : runStep cfg provider toolExec ctxDone st with
      | next st2 =>
        simp only [hs, RunResult.state, outcomeOf]
        rcases runStep_next_spec cfg provider toolExec ctxDone st st2 hs with ⟨hb2, hcase⟩
        rcases hcase with ⟨hd, _, hf⟩ | ⟨hd, _, hf, hflt⟩
        · exact ih st2 (hb2.trans hbr) (hf.trans (hd ▸ hinv)) (hf ▸ hle)
        · refine ih st2 (hb2.trans hbr) ?_ ?_
          · rw [hf, hd, failStreak_succ, hinv]
          · rcases hsuc : (toolExec st.dispatches).success with _ | _
            · exact Nat.lt_succ_iff.mp (hflt hsuc)
            · rw [hf]
              unfold failsUpd
              rw [hsuc]
              simp only [Bool.not_true, Bool.false_eq_true, if_false]
              split
              · omega
              · exact hle
      | halt o st2 =>
        simp only [hs, RunResult.state, outcomeOf]
        rcases runStep_halt_spec cfg provider toolExec ctxDone st st2 o hs with
          ⟨hb2, hd, hf⟩ | ⟨hb2, ho, hd, hf, hge, hsuc⟩
        · exact ⟨hf.trans (hd ▸ hinv), fun hb => absurd ((hb2.trans hbr) ▸ hb) (by simp),
            fun _ => hf ▸ hle⟩
        · have hstreak : failStreak toolExec st2.dispatches = st.consecutiveFails + 1 := by
            rw [hd, failStreak_succ, ← hinv]
            unfold failsUpd
            rw [hsuc]
            simp
          exact ⟨by omega, fun _ => ⟨by rw [ho], by omega, by omega⟩,
            fun hb => absurd (hb2 ▸ hb) (by simp)⟩
    · rw [if_neg hguard]
      exact ⟨hinv, fun hb => absurd (hbr ▸ hb) (by simp), fun _ => hle⟩

/-- C2 amended: once three consecutive dispatches have failed the run
terminates immediately — the breaker fires exactly when the counter
reaches 3 — but the outcome is the same `nil` (success) return as normal
completion, not a distinct `AbortedByFailureStreak`; and when every
failure streak of the dispatch oracle is interrupted, before reaching
three, by a success carrying a non-nil payload, the breaker never fires. -/
theorem c2_amended (cfg : AgentConfig) (provider : Nat → Option String)
    (toolExec : Nat → ToolResult) (ctxDone : Nat → Bool) (transcript : String)
    (fuel : Nat) (o : RunOutcome) (stf : RunState)
    (hrun : runAgent cfg provider toolExec ctxDone transcript fuel = RunResult.finished o stf) :
    (stf.breakerTripped = true →
      o = RunOutcome.ok ∧ stf.consecutiveFails = 3 ∧ 3 ≤ failStreak toolExec stf.dispatches)
    ∧ ((∀ k, failStreak toolExec k ≤ 2) → stf.breakerTripped = false) := by
  have h := runLoop_fails_inv cfg provider toolExec ctxDone fuel (initState transcript)
    rfl rfl (by simp [initState, failStreak])
  rw [runAgent] at hrun
  rw [hrun] at h
  simp only [RunResult.state, outcomeOf] at h
  rcases h with ⟨hinv, hbr, hnb⟩
  constructor
  · intro hb
    rcases hbr hb with ⟨ho, hf3, hge⟩
    exact ⟨by simpa [outcomeOf] using ho, hf3, hge⟩
  · intro hH
    by_contra hb
    have hb2 : stf.breakerTripped = true := by
      revert hb
      cases stf.breakerTripped <;> simp
    rcases hbr hb2 with ⟨_, _, hge⟩
    exact absurd (hH stf.dispatches) (by omega)

theorem runLoop_dispatch_bound (cfg : AgentConfig) (provider : Nat → Option String)
    (toolExec : Nat → ToolResult) (ctxDone : Nat → Bool) :
    ∀ fuel st, st.dispatches ≤ st.stepCount → st.stepCount ≤ cfg.maxSteps →
      (runLoop cfg provider toolExec ctxDone fuel st).state.dispatches ≤ cfg.maxSteps := by
  intro fuel
  induction fuel with
  | zero => intro st h1 h2; exact le_trans h1 h2
  | succ fuel ih =>
    intro st h1 h2
    rw [runLoop]
    by_cases hguard : st.stepCount < cfg.maxSteps
    · rw [if_pos hguard]
      cases hs : runStep cfg provider toolExec ctxDone st with
      | next st2 =>
        rcases runStep_next_spec cfg provider toolExec ctxDone st st2 hs with ⟨_, hcase⟩
        rcases hcase with ⟨hd, hsc, _⟩ | ⟨hd, hsc, _, _⟩
        · exact ih st2 (by omega) (by omega)
        · exact ih st2 (by omega) (by omega)
      | halt o st2 =>
        rcases runStep_halt_spec cfg provider toolExec ctxDone st st2 o hs with
          ⟨_, hd, _⟩ | ⟨_, _, hd, _, _, _⟩
        · show st2.dispatches ≤ cfg.maxSteps
          omega
        · show st2.dispatches ≤ cfg.maxSteps
          omega
    · rw [if_neg hguard]
      exact le_trans h1 h2

/-- C3 amended: an iteration that continues the loop either performed a
dispatch and charged the step counter by exactly one, or performed no
dispatch and left the counter unchanged (low-confidence and unknown-kind
iterations are of the second kind), so the loop is not bounded by
`maxSteps` iterations; nevertheless the dispatcher is invoked at most
`maxSteps` times in any run, and as soon as the counter reaches
`maxSteps` the loop stops with the `maximum steps exceeded` failure. -/
theorem c3_amended (cfg : AgentConfig) (provider : Nat → Option String)
    (toolExec : Nat → ToolResult) (ctxDone : Nat → Bool) :
    (∀ st st2, runStep cfg provider toolExec ctxDone st = StepResult.next st2 →
      (st2.stepCount = st.stepCount + 1 ∧ st2.dispatches = st.dispatches + 1)
      ∨ (st2.stepCount = st.stepCount ∧ st2.dispatches = st.dispatches))
    ∧ (∀ fuel transcript,
        (runAgent cfg provider toolExec ctxDone transcript fuel).state.dispatches ≤ cfg.maxSteps)
    ∧ (∀ fuel st, cfg.maxSteps ≤ st.stepCount →
        runLoop cfg provider toolExec ctxDone (fuel + 1) st
          = RunResult.finished RunOutcome.maxStepsExceeded st) := by
  refine ⟨?_, ?_, ?_⟩
  · intro st st2 hs
    rcases runStep_next_spec cfg provider toolExec ctxDone st st2 hs with ⟨_, hcase⟩
    rcases hcase with ⟨hd, hsc, _⟩ | ⟨hd, hsc, _, _⟩
    · exact Or.inr ⟨hsc, hd⟩
    · exact Or.inl ⟨hsc, hd⟩
  · intro fuel transcript
    exact runLoop_dispatch_bound cfg provider toolExec ctxDone fuel (initState transcript)
      (by simp [initState]) (by simp [initState])
  · intro fuel st hge
    rw [runLoop, if_neg (by omega)]

/-- C8 amended: after a dispatch, the consecutive-failure counter is
incremented by exactly one when the result has `succeeded = false`,
reset to zero when it has `succeeded = true` with a non-nil payload, and
left unchanged when it has `succeeded = true` with a nil payload; and
iterations without a dispatch never change the counter. -/
theorem c8_amended (cfg : AgentConfig) (provider : Nat → Option String)
    (toolExec : Nat → ToolResult) (ctxDone : Nat → Bool)
    (st : RunState) (response : String) (out : StructuredOutput)
    (hctx : ctxDone st.llmCalls = false)
    (hprov : provider st.llmCalls = some response)
    (hparse : parseStructuredOutput response = some out)
    (hkind : out.type = "tool_call")
    (hconf : Dec.blt out.confidence cfg.confidenceThreshold = false) :
    (stepState (runStep cfg provider toolExec ctxDone st)).dispatches = st.dispatches + 1
    ∧ (stepState (runStep cfg provider toolExec ctxDone st)).consecutiveFails
        = failsUpd (toolExec st.dispatches) st.consecutiveFails
    ∧ (∀ stA stB, runStep cfg provider toolExec ctxDone stA = StepResult.next stB →
        stB.dispatches = stA.dispatches → stB.consecutiveFails = stA.consecutiveFails) := by
  refine ⟨?_, ?_, ?_⟩
  · simp only [runStep, hctx, hprov, hparse, hkind, hconf, Bool.false_eq_true, if_false,
      reduceIte, reduceCtorEq]
    generalize toolExec st.dispatches = r
    rcases r with ⟨suc, dat, err⟩
    cases suc <;> cases dat <;>
      first | rfl | ((repeat' split) <;> simp_all [stepState, failsUpd])
  · simp only [runStep, hctx, hprov, hparse, hkind, hconf, Bool.false_eq_true, if_false,
      reduceIte, reduceCtorEq]
    generalize toolExec st.dispatches = r
    rcases r with ⟨suc, dat, err⟩
    cases suc <;> cases dat <;>
      first | rfl | ((repeat' split) <;> simp_all [stepState, failsUpd])
  · intro stA stB h hd
    rcases runStep_next_spec cfg provider toolExec ctxDone stA stB h with ⟨_, hcase⟩
    rcases hcase with ⟨_, _, hf⟩ | ⟨hd1, _, _, _⟩
    · exact hf
    · omega

/-- C9 amended: for a dispatched tool call, the log line records the
tool name and the argument map of the model envelope as it was before
path rewriting, while the dispatcher receives the rewritten arguments
(the output-directory prefix applied to relative `path` and `inputFile`
values). -/
theorem c9_amended (cfg : AgentConfig) (provider : Nat → Option String)
    (toolExec : Nat → ToolResult) (ctxDone : Nat → Bool)
    (st : RunState) (response : String) (out : StructuredOutput)
    (hctx : ctxDone st.llmCalls = false)
    (hprov : provider st.llmCalls = some response)
    (hparse : parseStructuredOutput response = some out)
    (hkind : out.type = "tool_call")
    (hconf : Dec.blt out.confidence cfg.confidenceThreshold = false) :
    (stepState (runStep cfg provider toolExec ctxDone st)).logs
      = st.logs ++ (if cfg.logsDir = "" then [] else [mkLogEntry cfg st out])
    ∧ (mkLogEntry cfg st out).tool = some out.tool
    ∧ (mkLogEntry cfg st out).args = some out.args
    ∧ (stepState (runStep cfg provider toolExec ctxDone st)).dispatched
      = st.dispatched ++ [(out.tool, modifyFilePaths cfg.outputDir out.args)] := by
  refine ⟨?_, by simp [mkLogEntry, hkind], by simp [mkLogEntry, hkind], ?_⟩
  · simp only [runStep, hctx, hprov, hparse, hkind, hconf, Bool.false_eq_true, if_false,
      reduceIte, reduceCtorEq]
    generalize toolExec st.dispatches = r
    rcases r with ⟨suc, dat, err⟩
    have hlog : logInteraction cfg { st with llmCalls := st.llmCalls + 1 } out
        = st.logs ++ (if cfg.logsDir = "" then [] else [mkLogEntry cfg st out]) := by
      unfold logInteraction mkLogEntry
      split <;> simp
    cases suc <;> cases dat <;>
      first
        | exact hlog
        | ((repeat' split) <;> first | exact hlog | simp_all [stepState])
  · simp only [runStep, hctx, hprov, hparse, hkind, hconf, Bool.false_eq_true, if_false,
      reduceIte, reduceCtorEq]
    generalize toolExec st.dispatches = r
    rcases r with ⟨suc, dat, err⟩
    cases suc <;> cases dat <;>
      first | rfl | ((repeat' split) <;> simp_all [stepState])

theorem listStarts_append_inv (s p q : List Char)
    (h : listStarts s (p ++ q) = true) : listStarts s p = true := by
  induction p generalizing s with
  | nil => cases s <;> rfl
  | cons c cs ih =>
    cases s with
    | nil => simp [listStarts] at h
    | cons a as =>
      simp only [List.cons_append, listStarts, Bool.and_eq_true] at h ⊢
      exact ⟨h.1, ih as h.2⟩

theorem cleanMarkdown_id (response : String)
    (htrim : trimSpace response = response)
    (hmd : startsWithStr response "```" = false) :
    cleanMarkdownCodeBlocks response = response := by
  have hmdj : startsWithStr response "```json" = false := by
    by_contra hc
    have h1 : startsWithStr response "```json" = true := by
      revert hc
      cases startsWithStr response "```json" <;> simp
    have h2 : listStarts response.data ("```".data ++ "json".data) = true := h1
    have h3 : startsWithStr response "```" = true :=
      listStarts_append_inv response.data "```".data "json".data h2
    rw [hmd] at h3
    exact absurd h3 (by simp)
  unfold cleanMarkdownCodeBlocks
  simp only [htrim, hmdj, hmd, Bool.false_eq_true, if_false]

/-- C6: when raw model text is several JSON objects concatenated with no
separator — the whole text does not parse but contains the brace pair —
the decoder splits on the brace pair, reattaches braces, and returns the
envelope unmarshalled from the first fragment that independently parses. -/
theorem c6_concatenated_objects (response f : String) (j : Json) (out : StructuredOutput)
    (htrim : trimSpace response = response)
    (hapi : isAPIErrorResponse response = false)
    (hmd : startsWithStr response "```" = false)
    (hwhole : jsonParse response = none)
    (hsep : containsSub response sepBracesStr = true)
    (hfirst : (splitFragments response).head? = some f)
    (hfix : jsonParse (fixCommonJSONIssues f) = some j)
    (hu : unmarshalOutput j = some out)
    (ht : out.type ≠ "") :
    parseStructuredOutput response = some out := by
  obtain ⟨rest, hobj⟩ : ∃ rest, splitFragments response = f :: rest := by
    cases hl : splitFragments response with
    | nil => rw [hl] at hfirst; exact absurd hfirst (by simp)
    | cons a tl =>
      rw [hl] at hfirst
      simp only [List.head?] at hfirst
      exact ⟨tl, by rw [Option.some.injEq] at hfirst; rw [hfirst]⟩
  unfold parseStructuredOutput
  simp only [htrim, hapi, Bool.false_eq_true, if_false]
  rw [cleanMarkdown_id response htrim hmd]
  unfold extractJSONObject
  simp only [hwhole, hsep, if_true, hobj, List.isEmpty_cons, Bool.false_eq_true, if_false]
  simp only [hfix, hu]
  simp [ht]

/-- Relation between the string view and the JSON view of an argument. -/
theorem argsGetStr_objGet (args : List (String × Json)) (k s : String)
    (h : argsGetStr args k = some s) : objGet args k = some (Json.str s) := by
  unfold argsGetStr at h
  cases ho : objGet args k with
  | none => rw [ho] at h; exact absurd h (by simp)
  | some v =>
    rw [ho] at h
    cases v <;> simp_all

/-- C10: `writeFileContents` defaults to overwriting. With a valid path
and content (and an environment where directory creation and the write
succeed), the effective policy is `explicit` or `allow`; it is `allow`
whenever the `overwrite` argument is absent, not a string, or any string
other than `explicit`/`allow`; the fail-if-exists error is returned
exactly when the file exists and the policy is `explicit`; in every
other case the write succeeds, silently replacing an existing file. -/
theorem c10_overwrite_policy (env : ToolEnv) (args : List (String × Json))
    (path content : String)
    (hpath : argsGetStr args "path" = some path)
    (hval : validatePath env.sandbox path = Except.ok ())
    (hcontent : argsGetStr args "content" = some content)
    (htilde : startsWithStr path "~" = false)
    (hmkdir : ∀ d, env.mkdirOk d = true)
    (hwrite : env.writeOk path = true) :
    ((writeFileContentsExecute env args).1.error = failExistsMsg
      ↔ (env.fileExists path = true ∧ effectiveOverwrite args = "explicit"))
    ∧ (effectiveOverwrite args = "explicit" ∨ effectiveOverwrite args = "allow")
    ∧ ((objGet args "overwrite" ≠ some (Json.str "explicit")
        ∧ objGet args "overwrite" ≠ some (Json.str "allow"))
        → effectiveOverwrite args = "allow")
    ∧ (¬(env.fileExists path = true ∧ effectiveOverwrite args = "explicit")
        → (writeFileContentsExecute env args).1.success = true) := by
  have hov : effectiveOverwrite args = "explicit" ∨ effectiveOverwrite args = "allow" := by
    unfold effectiveOverwrite
    cases argsGetStr args "overwrite" with
    | none => exact Or.inr rfl
    | some ow =>
      simp only []
      split
      · rename_i hcond
        have hcond2 : ow = "explicit" ∨ ow = "allow" := by simpa using hcond
        rcases hcond2 with h1 | h1 <;> simp_all
      · exact Or.inr rfl
  have heval : ∀ b : Bool,
      (env.fileExists path && effectiveOverwrite args = "explicit") = b →
      (writeFileContentsExecute env args).1
        = if b then ⟨false, none, failExistsMsg⟩
          else ⟨true, some (Json.obj [("path", Json.str path),
            ("bytesWritten", Json.num ⟨(content.length : Int), 0⟩)]), ""⟩ := by
    intro b hb
    unfold writeFileContentsExecute
    simp only [hpath, hval, hcontent, htilde, hmkdir, Bool.not_true, Bool.and_false,
      Bool.false_eq_true, if_false, hwrite, effectiveOverwrite] at hb ⊢
    rw [hb]
    cases b <;> simp
  refine ⟨?_, hov, ?_, ?_⟩
  · by_cases hc : env.fileExists path = true ∧ effectiveOverwrite args = "explicit"
    · rw [heval true (by simp [hc.1, hc.2])]
      simp [hc]
    · rw [heval false (by simpa [Bool.and_eq_true, decide_eq_true_iff] using hc)]
      simp only [Bool.false_eq_true, if_false]
      constructor
      · intro hmsg
        simp [failExistsMsg] at hmsg
      · intro hc2
        exact absurd hc2 hc
  · intro ⟨h1, h2⟩
    unfold effectiveOverwrite
    cases ho : argsGetStr args "overwrite" with
    | none => rfl
    | some ow =>
      have := argsGetStr_objGet args "overwrite" ow ho
      simp only []
      split
      · rename_i hcond
        have hcond2 : ow = "explicit" ∨ ow = "allow" := by simpa using hcond
        rcases hcond2 with h3 | h3 <;> simp_all
      · rfl
  · intro hc
    rw [heval false (by simpa [Bool.and_eq_true, decide_eq_true_iff] using hc)]
    simp

theorem strMkData (s : String) : String.mk s.data = s := rfl

theorem strDataAppend (a b : String) : (a ++ b).data = a.data ++ b.data := rfl

theorem strExt {a b : String} (h : a.data = b.data) : a = b := by
  cases a
  cases b
  exact congrArg String.mk (by simpa using h)

theorem splitSubAux_no_occur (pat : List Char) :
    ∀ fuel cs cur, containsSubCs pat cs = false →
      splitSubAux pat fuel cs cur = [cur.reverse ++ cs] := by
  intro fuel
  induction fuel with
  | zero => intro cs cur _; rfl
  | succ f ih =>
    intro cs cur h
    cases cs with
    | nil => simp [splitSubAux]
    | cons c rest =>
      have hparts := Bool.or_eq_false_iff.mp (by simpa [containsSubCs] using h)
      unfold splitSubAux
      rw [hparts.1]
      simp only [Bool.false_eq_true, if_false]
      rw [ih rest (c :: cur) hparts.2]
      simp

/-- Splitting a string of the form `body ++ comma ++ brace` on the
comma-brace pair, when the body followed by the closing brace has no
such pair: the only occurrence is the appended one (note the straddling
position cannot match because its second character is the comma). -/
theorem splitSubAux_tail_comma :
    ∀ fuel Pd cur, Pd.length + 1 ≤ fuel →
      containsSubCs [',', rbrace] (Pd ++ [rbrace]) = false →
      splitSubAux [',', rbrace] fuel (Pd ++ [',', rbrace]) cur
        = [cur.reverse ++ Pd, []] := by
  intro fuel
  induction fuel with
  | zero => intro Pd cur hlen _; omega
  | succ f ih =>
    intro Pd cur hlen h
    cases Pd with
    | nil =>
      simp only [List.nil_append, splitSubAux,
        show listStarts [',', rbrace] [',', rbrace] = true from by decide, if_true]
      cases f <;> simp [splitSubAux]
    | cons c rest =>
      rw [List.cons_append] at h
      simp only [containsSubCs] at h
      have hor := Bool.or_eq_false_iff.mp h
      have hns : listStarts (c :: (rest ++ [',', rbrace])) [',', rbrace] = false := by
        cases rest with
        | nil => simp [listStarts, show ¬(',' = rbrace) from by decide]
        | cons d rest2 => simpa [listStarts] using hor.1
      rw [show (c :: rest) ++ [',', rbrace] = c :: (rest ++ [',', rbrace]) from rfl]
      simp only [splitSubAux, hns, Bool.false_eq_true, if_false]
      rw [ih rest (c :: cur) (by simp at hlen; omega) hor.2]
      simp

theorem replaceAll_no_occur (s old new : String)
    (h : containsSub s old = false) : replaceAll s old new = s := by
  unfold replaceAll splitSubStr
  rw [splitSubAux_no_occur old.data _ s.data [] h]
  simp [joinWith]

/-- The comma repair on a well-formed document and on the same document
with a trailing comma: both yield the document itself, provided the
document contains no comma-brace or comma-bracket pair of its own. -/
theorem fix_trailing_comma (P s s' : String)
    (hs : s = P ++ rbraceStr) (hs' : s' = P ++ ("," ++ rbraceStr))
    (hnb : containsSub s ("," ++ rbraceStr) = false)
    (hnk : containsSub s ",]" = false)
    (htrim : trimSpace s = s) :
    fixCommonJSONIssues s' = s ∧ fixCommonJSONIssues s = s := by
  have hsdata : s.data = P.data ++ [rbrace] := by rw [hs, strDataAppend]; rfl
  have hsdata' : s'.data = P.data ++ [',', rbrace] := by rw [hs', strDataAppend]; rfl
  have hfirst : replaceAll s' ("," ++ rbraceStr) rbraceStr = s := by
    unfold replaceAll splitSubStr
    rw [show ("," ++ rbraceStr).data = [',', rbrace] from rfl, hsdata']
    rw [splitSubAux_tail_comma (P.data ++ [',', rbrace]).length.succ P.data []
      (by simp) (by rw [← hsdata]; exact hnb)]
    show joinWith rbraceStr [String.mk P.data, String.mk []] = s
    rw [hs]
    apply strExt
    simp [joinWith, strDataAppend, strMkData]
  have hnb' : containsSub s ",]" = false := hnk
  constructor
  · unfold fixCommonJSONIssues
    simp only [hfirst, replaceAll_no_occur s ",]" "]" hnk, htrim]
  · unfold fixCommonJSONIssues
    simp only [replaceAll_no_occur s ("," ++ rbraceStr) rbraceStr hnb,
      replaceAll_no_occur s ",]" "]" hnk, htrim]

/-- C7 amended: a single JSON envelope with a trailing comma before its
closing brace still decodes, to the very envelope the comma-less
document denotes, provided the document itself contains no comma-brace
or comma-bracket pair and no brace pair (the repair is a plain substring
replacement, so such pairs inside string values would also be rewritten,
as the counterexample shows). -/
theorem c7_amended (P s s' : String) (j : Json) (out : StructuredOutput)
    (hs : s = P ++ rbraceStr) (hs' : s' = P ++ ("," ++ rbraceStr))
    (hnb : containsSub s ("," ++ rbraceStr) = false)
    (hnk : containsSub s ",]" = false)
    (htrim : trimSpace s = s) (htrim' : trimSpace s' = s')
    (hapi : isAPIErrorResponse s = false) (hapi' : isAPIErrorResponse s' = false)
    (hmd : startsWithStr s "```" = false) (hmd' : startsWithStr s' "```" = false)
    (hj : jsonParse s = some j) (hj' : jsonParse s' = none)
    (hbr : containsSub s' sepBracesStr = false)
    (hscan : extractBraceCounting s' = [s'])
    (hu : unmarshalOutput j = some out) (ht : out.type ≠ "") :
    parseStructuredOutput s' = some out ∧ parseStructuredOutput s = some out := by
  obtain ⟨hfix', hfixs⟩ := fix_trailing_comma P s s' hs hs' hnb hnk htrim
  constructor
  · unfold parseStructuredOutput
    simp only [htrim', hapi', Bool.false_eq_true, if_false]
    rw [cleanMarkdown_id s' htrim' hmd']
    unfold extractJSONObject
    simp only [hj', hbr, Bool.false_eq_true, if_false, List.isEmpty_nil, if_true, hscan]
    simp only [hfix', hj, hu]
    simp [ht]
  · unfold parseStructuredOutput
    simp only [htrim, hapi, Bool.false_eq_true, if_false]
    rw [cleanMarkdown_id s htrim hmd]
    unfold extractJSONObject
    simp only [hj, hfixs, hu]
    simp [ht]

/-- A list whose optional last element is `some x` contains `x`. -/
theorem mem_of_getLastQ : ∀ (l : List String) (x : String), l.getLast? = some x → x ∈ l := by
  intro l
  induction l with
  | nil => intro x h; simp at h
  | cons a as ih =>
    intro x h
    cases as with
    | nil =>
      simp [List.getLast?_singleton] at h
      simp [h]
    | cons b bs =>
      rw [List.getLast?_cons_cons] at h
      exact List.mem_cons_of_mem _ (ih x h)

/-- Membership is preserved from `dropLast` to the full list. -/
theorem mem_of_mem_dropLast : ∀ (l : List String) (x : String), x ∈ l.dropLast → x ∈ l := by
  intro l
  induction l with
  | nil => intro x h; simp at h
  | cons a as ih =>
    intro x h
    cases as with
    | nil => simp at h
    | cons b bs =>
      simp only [List.dropLast] at h
      rcases List.mem_cons.mp h with h | h
      · simp [h]
      · exact List.mem_cons_of_mem _ (ih x h)

/-- Every pattern starts the list obtained by appending to it. -/
theorem listStarts_self_append : ∀ (p q : List Char), listStarts (p ++ q) p = true := by
  intro p
  induction p with
  | nil => intro q; cases q <;> rfl
  | cons a p ih => intro q; simp [listStarts, ih]

/-- The empty pattern starts every list. -/
theorem listStarts_nil (s : List Char) : listStarts s [] = true := by
  cases s <;> rfl

/-- No component produced by `splitSlashAux` contains a slash. -/
theorem splitSlashAux_noSlash : ∀ (cs : List Char) (cur : List Char),
    (∀ c ∈ cur, ¬ c = '/') →
    ∀ x ∈ splitSlashAux cs cur, ∀ c ∈ x.data, ¬ c = '/' := by
  intro cs
  induction cs with
  | nil =>
    intro cur hcur x hx
    simp only [splitSlashAux, List.mem_singleton] at hx
    subst hx
    intro c hc
    exact hcur c (by simpa using hc)
  | cons a rest ih =>
    intro cur hcur x hx
    by_cases ha : a = '/'
    · subst ha
      simp only [splitSlashAux, reduceIte, List.mem_cons] at hx
      rcases hx with hx | hx
      · subst hx
        intro c hc
        exact hcur c (by simpa using hc)
      · exact ih [] (by simp) x hx
    · simp only [splitSlashAux, if_neg ha] at hx
      refine ih (a :: cur) ?_ x hx
      intro c hc
      rcases List.mem_cons.mp hc with h | h
      · subst h; exact ha
      · exact hcur c h

/-- `splitSlashAux` walks past a slash-free chunk, accumulating it. -/
theorem splitSlashAux_chunk : ∀ (xd : List Char), (∀ c ∈ xd, ¬ c = '/') →
    ∀ (tl cur : List Char),
    splitSlashAux (xd ++ tl) cur = splitSlashAux tl (xd.reverse ++ cur) := by
  intro xd
  induction xd with
  | nil => intro _ tl cur; simp
  | cons a as ih =>
    intro h tl cur
    have ha : ¬ a = '/' := h a (by simp)
    rw [List.cons_append]
    simp only [splitSlashAux, if_neg ha]
    rw [ih (fun c hc => h c (List.mem_cons_of_mem _ hc)) tl (a :: cur)]
    simp [List.append_assoc]

/-- Splitting the slash-joined rendering of a non-empty list of slash-free
components recovers the components. -/
theorem splitSlash_render : ∀ (out : List String),
    (∀ x ∈ out, ∀ c ∈ x.data, ¬ c = '/') → out ≠ [] →
    splitSlashAux (joinSlash out).data [] = out := by
  intro out
  induction out with
  | nil => intro _ h; exact absurd rfl h
  | cons x xs ih =>
    intro hns _
    cases xs with
    | nil =>
      show splitSlashAux (joinSlash [x]).data [] = [x]
      have h1 : splitSlashAux (x.data ++ []) [] = splitSlashAux [] (x.data.reverse ++ []) :=
        splitSlashAux_chunk x.data (hns x (by simp)) [] []
      simp only [List.append_nil] at h1
      show splitSlashAux x.data [] = [x]
      rw [h1]
      simp [splitSlashAux, strMkData]
    | cons y ys =>
      have hd : (x ++ "/" ++ joinSlash (y :: ys)).data
          = x.data ++ ('/' :: (joinSlash (y :: ys)).data) := by
        rw [strDataAppend, strDataAppend, show ("/" : String).data = ['/'] from rfl]
        simp [List.append_assoc]
      show splitSlashAux (x ++ "/" ++ joinSlash (y :: ys)).data [] = x :: y :: ys
      rw [hd, splitSlashAux_chunk x.data (hns x (by simp)) ('/' :: (joinSlash (y :: ys)).data) []]
      simp only [List.append_nil, splitSlashAux, reduceIte]
      rw [ih (fun z hz => hns z (List.mem_cons_of_mem _ hz)) (by simp)]
      simp [strMkData]

/-- Every element of a fold of `cleanStep true` over slash-free components,
starting from a state of normal slash-free components, is a normal
slash-free component (never empty, dot, or dot-dot). -/
theorem foldl_cleanStep_inv : ∀ (cs : List String),
    (∀ x ∈ cs, ∀ c ∈ x.data, ¬ c = '/') →
    ∀ (out : List String),
    (∀ x ∈ out, (¬ x = "" ∧ ¬ x = "." ∧ ¬ x = "..") ∧ ∀ c ∈ x.data, ¬ c = '/') →
    ∀ x ∈ List.foldl (cleanStep true) out cs,
      (¬ x = "" ∧ ¬ x = "." ∧ ¬ x = "..") ∧ ∀ c ∈ x.data, ¬ c = '/' := by
  intro cs
  induction cs with
  | nil =>
    intro _ out hout x hx
    simp only [List.foldl_nil] at hx
    exact hout x hx
  | cons a rest ih =>
    intro hcs out hout x hx
    rw [List.foldl_cons] at hx
    refine ih (fun y hy => hcs y (List.mem_cons_of_mem _ hy)) (cleanStep true out a) ?_ x hx
    intro y hy
    unfold cleanStep at hy
    split at hy
    · exact hout y hy
    · split at hy
      · cases hg : out.getLast? with
        | some l =>
          simp only [hg] at hy
          split at hy
          · exact absurd (by assumption) ((hout l (mem_of_getLastQ out l hg)).1.2.2)
          · exact hout y (mem_of_mem_dropLast out y hy)
        | none =>
          simp only [hg] at hy
          simp at hy
          exact hout y hy
      · rename_i hcond hdd
        rcases List.mem_append.mp hy with h | h
        · exact hout y h
        · have hya : y = a := by simpa using h
          subst hya
          have h1 : ¬ y = "" := by intro he; exact hcond (by simp [he])
          have h2 : ¬ y = "." := by intro he; exact hcond (by simp [he])
          exact ⟨⟨h1, h2, hdd⟩, fun c hc => hcs y (by simp) c hc⟩

/-- Elements of `cleanComps true` of slash-free components are normal. -/
theorem cleanComps_rooted_normal (cs : List String)
    (hcs : ∀ x ∈ cs, ∀ c ∈ x.data, ¬ c = '/') :
    ∀ x ∈ cleanComps true cs,
      (¬ x = "" ∧ ¬ x = "." ∧ ¬ x = "..") ∧ ∀ c ∈ x.data, ¬ c = '/' := by
  intro x hx
  unfold cleanComps at hx
  exact foldl_cleanStep_inv cs hcs [] (by intro y hy; simp at hy) x hx

/-- Folding `cleanStep true` over normal components appends them all. -/
theorem foldl_cleanStep_push : ∀ (l : List String),
    (∀ x ∈ l, ¬ x = "" ∧ ¬ x = "." ∧ ¬ x = "..") →
    ∀ out, List.foldl (cleanStep true) out l = out ++ l := by
  intro l
  induction l with
  | nil => intro _ out; simp
  | cons a rest ih =>
    intro hl out
    rw [List.foldl_cons]
    have ha := hl a (by simp)
    have hstep : cleanStep true out a = out ++ [a] := by
      unfold cleanStep
      rw [if_neg (by simp [ha.1, ha.2.1]), if_neg ha.2.2]
    rw [hstep, ih (fun x hx => hl x (List.mem_cons_of_mem _ hx)) (out ++ [a])]
    simp

/-- A string led by a slash is never empty. -/
theorem slash_append_ne (s : String) : ¬ ("/" ++ s) = "" := by
  intro h
  have hd := congrArg String.data h
  rw [strDataAppend, show ("/" : String).data = ['/'] from rfl,
    show ("" : String).data = ([] : List Char) from rfl] at hd
  simp at hd

/-- A string led by a slash is never the dot path. -/
theorem slash_append_ne_dot (s : String) : ¬ ("/" ++ s) = "." := by
  intro h
  have hd := congrArg String.data h
  rw [strDataAppend, show ("/" : String).data = ['/'] from rfl,
    show ("." : String).data = ['.'] from rfl] at hd
  simp at hd

/-- Two slash-led strings with equal tails are equal. -/
theorem slash_append_inj {a b : String} (h : ("/" ++ a) = ("/" ++ b)) : a = b := by
  have hd := congrArg String.data h
  rw [strDataAppend, strDataAppend] at hd
  exact strExt (List.append_cancel_left hd)

/-- `isRooted` holds for any slash-led string. -/
theorem isRooted_slash (s : String) : isRooted ("/" ++ s) = true := by
  unfold isRooted startsWithStr
  rw [strDataAppend, show ("/" : String).data = ['/'] from rfl]
  exact listStarts_self_append ['/'] s.data

/-- Appending on the right preserves rootedness. -/
theorem isRooted_append (a b : String) (h : isRooted a = true) :
    isRooted (a ++ b) = true := by
  unfold isRooted startsWithStr at *
  rw [strDataAppend]
  rw [show ("/" : String).data = ['/'] from rfl] at h ⊢
  cases hd : a.data with
  | nil => rw [hd] at h; exact absurd h (by decide)
  | cons c cs =>
    rw [hd] at h
    simp only [List.cons_append, listStarts, listStarts_nil, Bool.and_true] at h ⊢
    exact h

/-- `pathClean` is the identity on the slash-led rendering of normal
slash-free components. -/
theorem pathClean_render (out : List String)
    (hn : ∀ x ∈ out, (¬ x = "" ∧ ¬ x = "." ∧ ¬ x = "..") ∧ ∀ c ∈ x.data, ¬ c = '/') :
    pathClean ("/" ++ joinSlash out) = "/" ++ joinSlash out := by
  have hdata : ("/" ++ joinSlash out).data = '/' :: (joinSlash out).data := by
    rw [strDataAppend, show ("/" : String).data = ['/'] from rfl]
    rfl
  have hcc : cleanComps true (splitSlash ("/" ++ joinSlash out)) = out := by
    unfold splitSlash
    rw [hdata]
    cases out with
    | nil => decide
    | cons x xs =>
      rw [show splitSlashAux ('/' :: (joinSlash (x :: xs)).data) []
          = "" :: splitSlashAux (joinSlash (x :: xs)).data [] from by simp [splitSlashAux]]
      rw [splitSlash_render (x :: xs) (fun z hz => (hn z hz).2) (by simp)]
      unfold cleanComps
      rw [List.foldl_cons, show cleanStep true [] "" = [] from by decide]
      rw [foldl_cleanStep_push (x :: xs) (fun z hz => (hn z hz).1) []]
      simp
  unfold pathClean
  rw [if_neg (slash_append_ne (joinSlash out))]
  simp only [isRooted_slash, reduceIte, hcc]
  rw [if_neg (slash_append_ne (joinSlash out))]

/-- `pathClean` of a rooted path is the slash-led rendering of normal
slash-free components. -/
theorem pathClean_rooted_form (q : String) (hq : isRooted q = true) :
    ∃ out, (∀ x ∈ out, (¬ x = "" ∧ ¬ x = "." ∧ ¬ x = "..") ∧ ∀ c ∈ x.data, ¬ c = '/')
      ∧ pathClean q = "/" ++ joinSlash out := by
  refine ⟨cleanComps true (splitSlash q), ?_, ?_⟩
  · exact cleanComps_rooted_normal (splitSlash q) (splitSlashAux_noSlash q.data [] (by simp))
  · have hqne : ¬ q = "" := by
      intro h
      rw [h] at hq
      exact absurd hq (by decide)
    unfold pathClean
    rw [if_neg hqne]
    simp only [hq, reduceIte]
    rw [if_neg (slash_append_ne (joinSlash (cleanComps true (splitSlash q))))]

/-- `pathAbs` under a rooted working directory is the slash-led rendering
of normal slash-free components. -/
theorem pathAbs_form (cwd p : String) (hcwd : isRooted cwd = true) :
    ∃ out, (∀ x ∈ out, (¬ x = "" ∧ ¬ x = "." ∧ ¬ x = "..") ∧ ∀ c ∈ x.data, ¬ c = '/')
      ∧ pathAbs cwd p = "/" ++ joinSlash out := by
  unfold pathAbs
  by_cases habs : pathIsAbs p = true
  · rw [if_pos habs]
    exact pathClean_rooted_form p habs
  · rw [if_neg habs]
    unfold pathJoin2
    have hcne : ¬ cwd = "" := by
      intro h
      rw [h] at hcwd
      exact absurd hcwd (by decide)
    rw [if_neg hcne]
    by_cases hpe : p = ""
    · rw [if_pos hpe]
      exact pathClean_rooted_form cwd hcwd
    · rw [if_neg hpe]
      exact pathClean_rooted_form (cwd ++ "/" ++ p)
        (isRooted_append (cwd ++ "/") p (isRooted_append cwd "/" hcwd))

/-- `stripCommon` removes exactly a shared leading segment. -/
theorem stripCommon_spec : ∀ (a b : List String), ∃ c,
    a = c ++ (stripCommon a b).1 ∧ b = c ++ (stripCommon a b).2 := by
  intro a
  induction a with
  | nil => intro b; exact ⟨[], by simp [stripCommon], by simp [stripCommon]⟩
  | cons x xs ih =>
    intro b
    cases b with
    | nil => exact ⟨[], by simp [stripCommon], by simp [stripCommon]⟩
    | cons y ys =>
      by_cases hxy : x = y
      · subst hxy
        obtain ⟨c, h1, h2⟩ := ih ys
        have hs : stripCommon (x :: xs) (x :: ys) = stripCommon xs ys := by
          simp [stripCommon]
        refine ⟨x :: c, ?_, ?_⟩
        · rw [hs, List.cons_append, ← h1]
        · rw [hs, List.cons_append, ← h2]
      · have hs : stripCommon (x :: xs) (y :: ys) = (x :: xs, y :: ys) := by
          simp [stripCommon, hxy]
        exact ⟨[], by simp [hs], by simp [hs]⟩

/-- A component list is a prefix of itself extended. -/
theorem compsLe_append : ∀ (a t : List String), compsLe a (a ++ t) = true := by
  intro a
  induction a with
  | nil => intro t; cases t <;> rfl
  | cons x xs ih => intro t; simp [compsLe, ih]

/-- `compsLe` is reflexive. -/
theorem compsLe_refl (l : List String) : compsLe l l = true := by
  simpa using compsLe_append l []

/-- Filtering out the empty string from a list without it is the
identity. -/
theorem filter_ne_empty (l : List String) (hl : ∀ x ∈ l, ¬ x = "") :
    List.filter (fun c => c ≠ "") l = l := by
  induction l with
  | nil => rfl
  | cons a as ih =>
    rw [List.filter_cons, if_pos (by simp [hl a (by simp)])]
    rw [ih (fun x hx => hl x (List.mem_cons_of_mem _ hx))]

/-- The rendering of a list headed by a non-empty component is not
empty. -/
theorem joinSlash_ne (z : String) (zs : List String) (hz : ¬ z = "") :
    ¬ joinSlash (z :: zs) = "" := by
  cases zs with
  | nil => exact hz
  | cons w ws =>
    intro h
    have h2 : z ++ "/" ++ joinSlash (w :: ws) = "" := h
    have hd := congrArg String.data h2
    rw [strDataAppend, strDataAppend,
      show ("" : String).data = ([] : List Char) from rfl] at hd
    simp at hd

/-- The rendering starts with its first component. -/
theorem joinSlash_head (x : String) (xs : List String) :
    startsWithStr (joinSlash (x :: xs)) x = true := by
  cases xs with
  | nil =>
    unfold startsWithStr
    show listStarts x.data x.data = true
    simpa using listStarts_self_append x.data []
  | cons y ys =>
    unfold startsWithStr
    show listStarts (x ++ "/" ++ joinSlash (y :: ys)).data x.data = true
    rw [strDataAppend, strDataAppend, List.append_assoc]
    exact listStarts_self_append x.data _

/-- Rendering slash-free non-empty component lists is injective. -/
theorem render_inj (oa ob : List String)
    (ha : ∀ x ∈ oa, ∀ c ∈ x.data, ¬ c = '/') (ha0 : ∀ x ∈ oa, ¬ x = "")
    (hb : ∀ x ∈ ob, ∀ c ∈ x.data, ¬ c = '/') (hb0 : ∀ x ∈ ob, ¬ x = "")
    (h : joinSlash oa = joinSlash ob) : oa = ob := by
  cases oa with
  | nil =>
    cases ob with
    | nil => rfl
    | cons z zs => exact absurd h.symm (joinSlash_ne z zs (hb0 z (by simp)))
  | cons x xs =>
    cases ob with
    | nil => exact absurd h (joinSlash_ne x xs (ha0 x (by simp)))
    | cons z zs =>
      have h1 := splitSlash_render (x :: xs) ha (by simp)
      have h2 := splitSlash_render (z :: zs) hb (by simp)
      rw [← h1, ← h2, h]

/-- Splitting the slash-led rendering of a non-empty list prepends one
empty component. -/
theorem splitSlash_render_cons (x : String) (xs : List String)
    (hns : ∀ z ∈ x :: xs, ∀ c ∈ z.data, ¬ c = '/') :
    splitSlash ("/" ++ joinSlash (x :: xs)) = "" :: x :: xs := by
  unfold splitSlash
  rw [strDataAppend, show ("/" : String).data = ['/'] from rfl]
  rw [show splitSlashAux (['/'] ++ (joinSlash (x :: xs)).data) []
      = "" :: splitSlashAux (joinSlash (x :: xs)).data [] from by simp [splitSlashAux]]
  rw [splitSlash_render (x :: xs) hns (by simp)]

/-- Splitting the slash-led rendering of the empty list gives two empty
components. -/
theorem splitSlash_render_nil : splitSlash ("/" ++ joinSlash []) = ["", ""] := by
  decide

/-- The non-empty components of the slash-led rendering of normal
components are the components themselves. -/
theorem pathComps_render (out : List String)
    (hn : ∀ x ∈ out, (¬ x = "" ∧ ¬ x = "." ∧ ¬ x = "..") ∧ ∀ c ∈ x.data, ¬ c = '/') :
    pathComps ("/" ++ joinSlash out) = out := by
  unfold pathComps
  cases out with
  | nil => decide
  | cons x xs =>
    rw [splitSlash_render_cons x xs (fun z hz => (hn z hz).2)]
    rw [List.filter_cons, if_neg (by simp)]
    exact filter_ne_empty (x :: xs) (fun z hz => (hn z hz).1.1)

/-- Let-free unfolding of `pathRel`. -/
theorem pathRel_unfold (basepath targpath : String) :
    pathRel basepath targpath =
      (if pathClean targpath = pathClean basepath then some "."
       else if isRooted (pathClean basepath) ≠ isRooted (pathClean targpath) then none
       else
         match (stripCommon
             (splitSlash (if pathClean basepath = "." then "" else pathClean basepath))
             (splitSlash (pathClean targpath))).1.filter (fun c => c ≠ "") with
         | ".." :: _ => none
         | _ => some (joinSlash (List.replicate ((stripCommon
             (splitSlash (if pathClean basepath = "." then "" else pathClean basepath))
             (splitSlash (pathClean targpath))).1.filter (fun c => c ≠ "")).length ".."
             ++ (stripCommon
             (splitSlash (if pathClean basepath = "." then "" else pathClean basepath))
             (splitSlash (pathClean targpath))).2.filter (fun c => c ≠ "")))) := rfl

/-- Soundness of the textual dot-dot test on cleaned absolute paths: when
`pathRel` of two rendered normal paths yields a relative path not starting
with dot-dot, the second path equals or descends from the first. -/
theorem pathRel_sound (oa ob : List String)
    (ha : ∀ x ∈ oa, (¬ x = "" ∧ ¬ x = "." ∧ ¬ x = "..") ∧ ∀ c ∈ x.data, ¬ c = '/')
    (hb : ∀ x ∈ ob, (¬ x = "" ∧ ¬ x = "." ∧ ¬ x = "..") ∧ ∀ c ∈ x.data, ¬ c = '/')
    (rel : String)
    (h1 : pathRel ("/" ++ joinSlash oa) ("/" ++ joinSlash ob) = some rel)
    (h2 : startsWithStr rel ".." = false) :
    compsLe (pathComps ("/" ++ joinSlash oa)) (pathComps ("/" ++ joinSlash ob)) = true := by
  rw [pathComps_render oa ha, pathComps_render ob hb]
  cases hoa : oa with
  | nil => cases ob <;> rfl
  | cons x xs =>
    subst hoa
    rw [pathRel_unfold] at h1
    rw [pathClean_render (x :: xs) ha, pathClean_render ob hb] at h1
    split at h1
    · rename_i heq
      have hob : ob = x :: xs :=
        render_inj ob (x :: xs) (fun z hz => (hb z hz).2) (fun z hz => (hb z hz).1.1)
          (fun z hz => (ha z hz).2) (fun z hz => (ha z hz).1.1)
          (slash_append_inj heq)
      rw [hob]
      exact compsLe_refl (x :: xs)
    · split at h1
      · simp at h1
      · rw [if_neg (slash_append_ne_dot (joinSlash (x :: xs)))] at h1
        rw [splitSlash_render_cons x xs (fun z hz => (ha z hz).2)] at h1
        cases hob : ob with
        | nil =>
          subst hob
          rw [splitSlash_render_nil] at h1
          have hx0 : ¬ x = "" := (ha x (by simp)).1.1
          have hsc : stripCommon ("" :: x :: xs) ["", ""] = (x :: xs, [""]) := by
            simp [stripCommon, hx0]
          simp only [hsc, filter_ne_empty (x :: xs) (fun z hz => (ha z hz).1.1)] at h1
          split at h1
          · simp at h1
          · have hrel := Option.some.inj h1
            rw [← hrel] at h2
            rw [show List.filter (fun c => c ≠ "") [""] = [] from by decide] at h2
            rw [List.length_cons, List.replicate_succ, List.cons_append] at h2
            rw [joinSlash_head ".." _] at h2
            simp at h2
        | cons z zs =>
          subst hob
          rw [splitSlash_render_cons z zs (fun w hw => (hb w hw).2)] at h1
          have hsc : stripCommon ("" :: x :: xs) ("" :: z :: zs)
              = stripCommon (x :: xs) (z :: zs) := by
            simp [stripCommon]
          rw [hsc] at h1
          obtain ⟨c, hca, hcb⟩ := stripCommon_spec (x :: xs) (z :: zs)
          cases hba : (stripCommon (x :: xs) (z :: zs)).1 with
          | nil =>
            rw [hba, List.append_nil] at hca
            rw [hcb, ← hca]
            exact compsLe_append (x :: xs) _
          | cons b bs =>
            rw [hba] at hca h1
            have hblf : List.filter (fun w => w ≠ "") (b :: bs) = b :: bs :=
              filter_ne_empty (b :: bs)
                (fun w hw => (ha w (by rw [hca]; exact List.mem_append_right c hw)).1.1)
            simp only [hblf] at h1
            split at h1
            · simp at h1
            · have hrel := Option.some.inj h1
              rw [← hrel] at h2
              rw [List.length_cons, List.replicate_succ, List.cons_append] at h2
              rw [joinSlash_head ".." _] at h2
              simp at h2

/-- C4 (corrected): the acceptance test of `validatePath` is sound — a
path it accepts resolves (lexically, against the working directory; the
code never evaluates symlinks) to an absolute path that equals or
descends, component-wise, from at least one allowed base directory, and
rejection is the default: `/etc/passwd` and `root + "/../outside"` are
both rejected under the fixture sandbox. The spec's "iff" direction is
refuted by `c4_counterexample`: a genuine descendant whose leaf name
starts with two dots is rejected because the test is textual on the
`filepath.Rel` result. -/
theorem c4_amended (env : SandboxEnv) (p home : String)
    (hcwd : isRooted env.cwd = true)
    (hhome : env.homeDir = some home)
    (hok : (validatePath env p).isOk = true) :
    (∃ dir, dir ∈ allowedDirs env home
      ∧ compsLe (pathComps (pathAbs env.cwd dir)) (pathComps (pathAbs env.cwd p)) = true)
    ∧ (validatePath envS "/etc/passwd").isOk = false
    ∧ (validatePath envS ((pathJoin2 "/home/u" "mermaid-agent-documenter") ++ "/../outside")).isOk = false := by
  refine ⟨?_, by decide, by decide⟩
  unfold validatePath at hok
  simp only [hhome] at hok
  split at hok
  · rename_i hcond
    obtain ⟨dir, hdir, hpred⟩ := List.any_eq_true.mp hcond
    refine ⟨dir, hdir, ?_⟩
    cases hpr : pathRel (pathAbs env.cwd dir) (pathAbs env.cwd p) with
    | none => rw [hpr] at hpred; simp at hpred
    | some rel =>
      rw [hpr] at hpred
      simp at hpred
      obtain ⟨oa, hna, hea⟩ := pathAbs_form env.cwd dir hcwd
      obtain ⟨ob, hnb, heb⟩ := pathAbs_form env.cwd p hcwd
      rw [hea, heb] at hpr ⊢
      exact pathRel_sound oa ob hna hnb rel hpr hpred
  · exact Bool.noConfusion hok

/-- Witness for the corrected C4 theorem: the sandbox of `envS` accepts
the concrete descendant path and rejects the two escape examples. -/
theorem c4_amended_witness :
    (∃ dir, dir ∈ allowedDirs envS "/home/u"
      ∧ compsLe (pathComps (pathAbs envS.cwd dir))
          (pathComps (pathAbs envS.cwd "/home/u/mermaid-agent-documenter/notes.md")) = true)
    ∧ (validatePath envS "/etc/passwd").isOk = false
    ∧ (validatePath envS ((pathJoin2 "/home/u" "mermaid-agent-documenter") ++ "/../outside")).isOk = false :=
  c4_amended envS "/home/u/mermaid-agent-documenter/notes.md" "/home/u"
    (by decide) (by decide) (by decide)

/-- Witness for C5 at the concrete low-confidence tool reply. -/
theorem c5_low_confidence_never_dispatches_witness :
    ∃ st2, runStep cfgA (provConst rsToolLow) teSucc ctxNever (initState "t") = StepResult.next st2
      ∧ st2.dispatches = (initState "t").dispatches
      ∧ st2.dispatched = (initState "t").dispatched
      ∧ st2.conv = (initState "t").conv
          ++ [Turn.mk "assistant" rsToolLow, Turn.mk "user" reconsiderMsg] :=
  c5_low_confidence_never_dispatches cfgA (provConst rsToolLow) teSucc ctxNever
    (initState "t") rsToolLow ((parseStructuredOutput rsToolLow).getD emptyOutput)
    rfl rfl rfl (Or.inl rfl) rfl

/-- Witness for the corrected C2 theorem on the always-failing dispatch
oracle: the breaker trips and the run still finishes with the success
outcome. -/
theorem c2_amended_witness :
    ((runAgent cfgA (provConst rsToolHigh) teFail ctxNever "t" 5).state.breakerTripped = true →
      RunOutcome.ok = RunOutcome.ok
      ∧ (runAgent cfgA (provConst rsToolHigh) teFail ctxNever "t" 5).state.consecutiveFails = 3
      ∧ 3 ≤ failStreak teFail
          (runAgent cfgA (provConst rsToolHigh) teFail ctxNever "t" 5).state.dispatches)
    ∧ ((∀ k, failStreak teFail k ≤ 2) →
      (runAgent cfgA (provConst rsToolHigh) teFail ctxNever "t" 5).state.breakerTripped = false) :=
  c2_amended cfgA (provConst rsToolHigh) teFail ctxNever "t" 5 RunOutcome.ok
    ((runAgent cfgA (provConst rsToolHigh) teFail ctxNever "t" 5).state) rfl

/-- Witness for the corrected C3 theorem: a continuing low-confidence
step (no charge or a unit charge), the dispatch bound of a concrete run,
and the budget failure at the budget boundary. -/
theorem c3_amended_witness :
    (((stepState (runStep cfgA (provConst rsToolLow) teSucc ctxNever (initState "t"))).stepCount
        = (initState "t").stepCount + 1
      ∧ (stepState (runStep cfgA (provConst rsToolLow) teSucc ctxNever (initState "t"))).dispatches
        = (initState "t").dispatches + 1)
     ∨ ((stepState (runStep cfgA (provConst rsToolLow) teSucc ctxNever (initState "t"))).stepCount
        = (initState "t").stepCount
      ∧ (stepState (runStep cfgA (provConst rsToolLow) teSucc ctxNever (initState "t"))).dispatches
        = (initState "t").dispatches))
    ∧ (runAgent cfgB (provConst rsToolHigh) teSucc ctxNever "t" 3).state.dispatches ≤ cfgB.maxSteps
    ∧ runLoop cfgB (provConst rsToolHigh) teSucc ctxNever (0 + 1)
        ((runLoop cfgB (provConst rsToolHigh) teSucc ctxNever 1 (initState "t")).state)
      = RunResult.finished RunOutcome.maxStepsExceeded
          ((runLoop cfgB (provConst rsToolHigh) teSucc ctxNever 1 (initState "t")).state) := by
  refine ⟨(c3_amended cfgA (provConst rsToolLow) teSucc ctxNever).1 (initState "t")
      (stepState (runStep cfgA (provConst rsToolLow) teSucc ctxNever (initState "t"))) rfl,
    (c3_amended cfgB (provConst rsToolHigh) teSucc ctxNever).2.1 3 "t",
    (c3_amended cfgB (provConst rsToolHigh) teSucc ctxNever).2.2 0
      ((runLoop cfgB (provConst rsToolHigh) teSucc ctxNever 1 (initState "t")).state) ?_⟩
  decide

/-- Witness for the corrected C8 theorem at the concrete high-confidence
tool reply over the always-succeeding oracle. -/
theorem c8_amended_witness :
    (stepState (runStep cfgA (provConst rsToolHigh) teSucc ctxNever (initState "t"))).dispatches
        = (initState "t").dispatches + 1
    ∧ (stepState (runStep cfgA (provConst rsToolHigh) teSucc ctxNever (initState "t"))).consecutiveFails
        = failsUpd (teSucc (initState "t").dispatches) (initState "t").consecutiveFails
    ∧ (∀ stA stB, runStep cfgA (provConst rsToolHigh) teSucc ctxNever stA = StepResult.next stB →
        stB.dispatches = stA.dispatches → stB.consecutiveFails = stA.consecutiveFails) :=
  c8_amended cfgA (provConst rsToolHigh) teSucc ctxNever (initState "t") rsToolHigh
    ((parseStructuredOutput rsToolHigh).getD emptyOutput) rfl rfl rfl rfl rfl

/-- Witness for the corrected C9 theorem at the concrete high-confidence
tool reply: the log keeps the raw relative path, the dispatcher receives
the rewritten arguments. -/
theorem c9_amended_witness :
    (stepState (runStep cfgA (provConst rsToolHigh) teSucc ctxNever (initState "t"))).logs
      = (initState "t").logs ++ (if cfgA.logsDir = "" then []
          else [mkLogEntry cfgA (initState "t")
            ((parseStructuredOutput rsToolHigh).getD emptyOutput)])
    ∧ (mkLogEntry cfgA (initState "t") ((parseStructuredOutput rsToolHigh).getD emptyOutput)).tool
        = some ((parseStructuredOutput rsToolHigh).getD emptyOutput).tool
    ∧ (mkLogEntry cfgA (initState "t") ((parseStructuredOutput rsToolHigh).getD emptyOutput)).args
        = some ((parseStructuredOutput rsToolHigh).getD emptyOutput).args
    ∧ (stepState (runStep cfgA (provConst rsToolHigh) teSucc ctxNever (initState "t"))).dispatched
      = (initState "t").dispatched
          ++ [(((parseStructuredOutput rsToolHigh).getD emptyOutput).tool,
              modifyFilePaths cfgA.outputDir
                ((parseStructuredOutput rsToolHigh).getD emptyOutput).args)] :=
  c9_amended cfgA (provConst rsToolHigh) teSucc ctxNever (initState "t") rsToolHigh
    ((parseStructuredOutput rsToolHigh).getD emptyOutput) rfl rfl rfl rfl rfl

/-- Witness for C6 on the concrete concatenated double envelope. -/
theorem c6_concatenated_objects_witness :
    parseStructuredOutput concatExample
      = some ((unmarshalOutput ((jsonParse (fixCommonJSONIssues
          ((splitFragments concatExample).headD ""))).getD Json.null)).getD emptyOutput) :=
  c6_concatenated_objects concatExample ((splitFragments concatExample).headD "")
    ((jsonParse (fixCommonJSONIssues ((splitFragments concatExample).headD ""))).getD Json.null)
    ((unmarshalOutput ((jsonParse (fixCommonJSONIssues
        ((splitFragments concatExample).headD ""))).getD Json.null)).getD emptyOutput)
    rfl rfl rfl rfl rfl rfl rfl rfl (by decide)

/-- Witness for the corrected C7 theorem on the concrete trailing-comma
envelope and its comma-less form. -/
theorem c7_amended_witness :
    parseStructuredOutput tcExample
      = some ((unmarshalOutput ((jsonParse tcExampleClean).getD Json.null)).getD emptyOutput)
    ∧ parseStructuredOutput tcExampleClean
      = some ((unmarshalOutput ((jsonParse tcExampleClean).getD Json.null)).getD emptyOutput) :=
  c7_amended "\x7b\"type\":\"final\",\"confidence\":0.95,\"rationale\":\"done\""
    tcExampleClean tcExample ((jsonParse tcExampleClean).getD Json.null)
    ((unmarshalOutput ((jsonParse tcExampleClean).getD Json.null)).getD emptyOutput)
    rfl rfl rfl rfl rfl rfl rfl rfl rfl rfl rfl rfl rfl rfl rfl (by decide)

/-- Witness for C10 on a concrete valid write into the sandbox. -/
theorem c10_overwrite_policy_witness :
    ((writeFileContentsExecute envT
        [("path", Json.str "/home/u/mermaid-agent-documenter/notes.md"),
         ("content", Json.str "hello")]).1.error = failExistsMsg
      ↔ (envT.fileExists "/home/u/mermaid-agent-documenter/notes.md" = true
         ∧ effectiveOverwrite
             [("path", Json.str "/home/u/mermaid-agent-documenter/notes.md"),
              ("content", Json.str "hello")] = "explicit"))
    ∧ (effectiveOverwrite
         [("path", Json.str "/home/u/mermaid-agent-documenter/notes.md"),
          ("content", Json.str "hello")] = "explicit"
       ∨ effectiveOverwrite
         [("path", Json.str "/home/u/mermaid-agent-documenter/notes.md"),
          ("content", Json.str "hello")] = "allow")
    ∧ ((objGet [("path", Json.str "/home/u/mermaid-agent-documenter/notes.md"),
          ("content", Json.str "hello")] "overwrite" ≠ some (Json.str "explicit")
        ∧ objGet [("path", Json.str "/home/u/mermaid-agent-documenter/notes.md"),
          ("content", Json.str "hello")] "overwrite" ≠ some (Json.str "allow"))
        → effectiveOverwrite [("path", Json.str "/home/u/mermaid-agent-documenter/notes.md"),
          ("content", Json.str "hello")] = "allow")
    ∧ (¬(envT.fileExists "/home/u/mermaid-agent-documenter/notes.md" = true
         ∧ effectiveOverwrite [("path", Json.str "/home/u/mermaid-agent-documenter/notes.md"),
             ("content", Json.str "hello")] = "explicit")
        → (writeFileContentsExecute envT
            [("path", Json.str "/home/u/mermaid-agent-documenter/notes.md"),
             ("content", Json.str "hello")]).1.success = true) :=
  c10_overwrite_policy envT
    [("path", Json.str "/home/u/mermaid-agent-documenter/notes.md"),
     ("content", Json.str "hello")]
    "/home/u/mermaid-agent-documenter/notes.md" "hello"
    rfl rfl rfl rfl (fun _ => rfl) rfl

end MermaidAgent
